import Mathlib

/-!
Shallow embedding of the retrieval cache and query orchestration subsystem of
the AvatarAdam backend (`backend/app/services/rag_cache.py` and
`backend/app/services/rag_service.py`), together with proofs and refutations of
the specification claims about it.

Conventions.  Timestamps and similarity scores are rationals; the injectable
clock of the source (`time.time()`) becomes an explicit `now` argument.  Cosine
similarity is computed by numpy over floats in the source; the definitions here
take the similarity function as an explicit parameter `sim`, so every theorem
quantifies over it (for unit vectors cosine similarity coincides with the
rational dot product, which witnesses use).  Python dictionaries become
association lists with insertion-order semantics, `OrderedDict` becomes a list
whose head is the least recently used entry, and async mutation becomes
explicit state passing.
-/

namespace Rag

/-- An embedding vector. -/
abbrev Emb := List ℚ

/-- A retrieved chunk as returned by `RAGService.query` and stored in the
session context: the dict with content, topic, filename and score built from a
Pinecone match. -/
structure ChunkResult where
  content : String
  topic : String
  filename : String
  score : ℚ
  deriving DecidableEq, Repr

/-- Look up a key in an association list (first match), as a Python dict read. -/
def getA {β : Type} (m : List (String × β)) (k : String) : Option β :=
  (m.find? (fun e => e.1 == k)).map (fun e => e.2)

/-- Delete a key from an association list, as Python `del d[k]`. -/
def eraseA {β : Type} (m : List (String × β)) (k : String) : List (String × β) :=
  m.filter (fun e => e.1 != k)

/-- Write a key in an association list: replace the first occurrence in place,
or append, matching Python dict assignment order semantics. -/
def setA {β : Type} : List (String × β) → String → β → List (String × β)
  | [], k, v => [(k, v)]
  | (k', v') :: rest, k, v =>
    if k' == k then (k, v) :: rest else (k', v') :: setA rest k v

/-- Membership test for a key, as Python `k in d`. -/
def hasKey {β : Type} (m : List (String × β)) (k : String) : Bool :=
  m.any (fun e => e.1 == k)

/-! ## LRUCache (`rag_cache.py`, class `LRUCache`)

The `OrderedDict` is a list of `(key, value, timestamp)` triples whose head is
the least recently used entry (Python's eviction pops the front with
`popitem(last=False)` and `move_to_end` appends to the back). -/

/-- State of `LRUCache`: max size, time-to-live, and the ordered entries. -/
structure LRUCache (α : Type) where
  maxsize : ℕ
  ttl_seconds : ℚ
  cache : List (String × α × ℚ)
  deriving Repr

/-- Keys of the cache in LRU-to-MRU order. -/
def LRUCache.keys {α : Type} (c : LRUCache α) : List String :=
  c.cache.map (fun e => e.1)

/-- Model of `LRUCache.get`: absent keys return `none`; an entry whose age exceeds the
time-to-live is deleted and reported absent; otherwise the entry moves to the
most-recently-used (back) position and its value is returned. -/
def LRUCache.get {α : Type} (c : LRUCache α) (key : String) (now : ℚ) :
    Option α × LRUCache α :=
  match c.cache.find? (fun e => e.1 == key) with
  | none => (none, c)
  | some (_, v, ts) =>
    if now - ts > c.ttl_seconds then
      (none, { c with cache := c.cache.filter (fun e => e.1 != key) })
    else
      (some v,
       { c with cache := c.cache.filter (fun e => e.1 != key) ++ [(key, v, ts)] })

/-- Model of `LRUCache.set`: remove the key if present, then pop front entries while the
size is still at least `maxsize` (for `maxsize ≥ 1` the `while` loop pops
exactly `length + 1 - maxsize` front entries, truncated at zero), then append
the new entry at the most-recently-used position with the current time. -/
def LRUCache.set {α : Type} (c : LRUCache α) (key : String) (v : α) (now : ℚ) :
    LRUCache α :=
  let l := c.cache.filter (fun e => e.1 != key)
  { c with cache := l.drop (l.length + 1 - c.maxsize) ++ [(key, v, now)] }

/-- Model of `LRUCache.clear`. -/
def LRUCache.clear {α : Type} (c : LRUCache α) : LRUCache α :=
  { c with cache := [] }

/-- Model of `LRUCache.size`. -/
def LRUCache.size {α : Type} (c : LRUCache α) : ℕ :=
  c.cache.length

/-! ## SemanticCache (`rag_cache.py`, class `SemanticCache`) -/

/-- A cached RAG query result (`CachedResult` dataclass). -/
structure CachedResult where
  results : List ChunkResult
  embedding : Emb
  timestamp : ℚ
  hit_count : ℕ
  deriving DecidableEq, Repr

/-- State of `SemanticCache`: the result map keyed by cache key, and the
per-dealership lists of `(cache_key, embedding)` pairs in insertion order. -/
structure SemanticCache where
  maxsize : ℕ
  similarity_threshold : ℚ
  ttl_seconds : ℚ
  cache : List (String × CachedResult)
  embeddings : List (String × List (String × Emb))
  deriving Repr

/-- Model of `SemanticCache._generate_key`, which computes a sha-256 digest of
`"{dealership_id}:{query}"` truncated to 16 hex chars; the digest is modelled by
its (injective) preimage string, since only determinism of the key is
observable in the embedded operations. -/
def genKey (query : String) (dealership_id : ℤ) : String :=
  toString dealership_id ++ ":" ++ query

/-- The scan loop of `SemanticCache.find_similar`: walk the dealership's
`(cache_key, embedding)` list, collecting entries whose key is missing from the
result map or whose age exceeds the time-to-live into `expired` (deleting the
latter from the result map as scanned), and tracking the best key with
`similarity > best_similarity` (starting at 0) and `similarity ≥ threshold`. -/
def scanEntries (sim : Emb → Emb → ℚ) (q : Emb) (threshold ttl now : ℚ) :
    List (String × Emb) → List (String × CachedResult) →
    Option String → ℚ → List (String × Emb) →
    Option String × ℚ × List (String × Emb) × List (String × CachedResult)
  | [], cache, best, bestSim, expired => (best, bestSim, expired, cache)
  | (k, emb) :: rest, cache, best, bestSim, expired =>
    match getA cache k with
    | none =>
      scanEntries sim q threshold ttl now rest cache best bestSim
        (expired ++ [(k, emb)])
    | some cached =>
      if now - cached.timestamp > ttl then
        scanEntries sim q threshold ttl now rest (eraseA cache k) best bestSim
          (expired ++ [(k, emb)])
      else
        let s := sim q emb
        if s > bestSim ∧ s ≥ threshold then
          scanEntries sim q threshold ttl now rest cache (some k) s expired
        else
          scanEntries sim q threshold ttl now rest cache best bestSim expired

/-- Model of `SemanticCache.find_similar`: scan the dealership's entries, remove the
expired ones from the per-dealership list (Python `list.remove`, first
occurrence each), and if a best match was found increment its hit counter and
return it. -/
def SemanticCache.find_similar (sim : Emb → Emb → ℚ) (c : SemanticCache)
    (query_embedding : Emb) (dealership_id : ℤ) (now : ℚ) :
    Option CachedResult × SemanticCache :=
  let dealer_key := toString dealership_id
  match getA c.embeddings dealer_key with
  | none => (none, c)
  | some entries =>
    let r := scanEntries sim query_embedding c.similarity_threshold
      c.ttl_seconds now entries c.cache none 0 []
    let best := r.1
    let expired := r.2.2.1
    let cache1 := r.2.2.2
    let entries1 := expired.foldl (fun l item => l.erase item) entries
    let c1 := { c with cache := cache1,
                       embeddings := setA c.embeddings dealer_key entries1 }
    match best with
    | none => (none, c1)
    | some k =>
      match getA cache1 k with
      | none => (none, c1)  -- unreachable: an accepted key is never erased
      | some cached =>
        let cached1 := { cached with hit_count := cached.hit_count + 1 }
        (some cached1, { c1 with cache := setA cache1 k cached1 })

/-- Model of `SemanticCache.store`: evict oldest per-dealership entries while at
capacity (deleting their result rows; for `maxsize ≥ 1` the `while` loop pops
exactly `length + 1 - maxsize` front entries, truncated at zero), then write
the new result row and append the `(cache_key, embedding)` pair. -/
def SemanticCache.store (c : SemanticCache) (query : String)
    (query_embedding : Emb) (results : List ChunkResult) (dealership_id : ℤ)
    (now : ℚ) : SemanticCache :=
  let dealer_key := toString dealership_id
  let cache_key := genKey query dealership_id
  let entries := (getA c.embeddings dealer_key).getD []
  let popped := entries.take (entries.length + 1 - c.maxsize)
  let entries1 := entries.drop (entries.length + 1 - c.maxsize)
  let cache1 := popped.foldl (fun m e => eraseA m e.1) c.cache
  { c with
    cache := setA cache1 cache_key
      { results := results, embedding := query_embedding, timestamp := now,
        hit_count := 0 },
    embeddings := setA c.embeddings dealer_key
      (entries1 ++ [(cache_key, query_embedding)]) }

/-- Model of `SemanticCache.clear_dealership`: drop the dealership's entry list and all
result rows it references. -/
def SemanticCache.clear_dealership (c : SemanticCache) (dealership_id : ℤ) :
    SemanticCache :=
  let dealer_key := toString dealership_id
  match getA c.embeddings dealer_key with
  | none => c
  | some entries =>
    { c with cache := entries.foldl (fun m e => eraseA m e.1) c.cache,
             embeddings := eraseA c.embeddings dealer_key }

/-! ## RAGCache (`rag_cache.py`, class `RAGCache`) -/

/-- Pre-warmed context for an active session (`SessionContext` dataclass). -/
structure SessionContext where
  dealership_id : ℤ
  chunks : List ChunkResult
  embeddings : List Emb
  created_at : ℚ
  last_accessed : ℚ
  deriving DecidableEq, Repr

/-- State of the `RAGCache` facade: the three caches and the hit/miss
counters. -/
structure RAGCache where
  embedding_cache : LRUCache Emb
  semantic_cache : SemanticCache
  session_contexts : List (String × SessionContext)
  embedding_hits : ℕ
  embedding_misses : ℕ
  semantic_hits : ℕ
  semantic_misses : ℕ
  deriving Repr

/-- The freshly constructed `RAGCache` of `RAGCache.__init__`. -/
def RAGCache.init : RAGCache where
  embedding_cache := { maxsize := 2000, ttl_seconds := 3600, cache := [] }
  semantic_cache :=
    { maxsize := 500, similarity_threshold := 92/100, ttl_seconds := 1800,
      cache := [], embeddings := [] }
  session_contexts := []
  embedding_hits := 0
  embedding_misses := 0
  semantic_hits := 0
  semantic_misses := 0

/-- Python truthiness of the value returned by the embedding cache: `None` and
the empty list are falsy. -/
def optEmbTruthy : Option Emb → Bool
  | some v => !v.isEmpty
  | none => false

/-- Model of `RAGCache.get_cached_embedding`: read the LRU cache and count a hit when
the returned value is truthy, a miss otherwise; the (possibly falsy) value is
returned either way. -/
def RAGCache.get_cached_embedding (rc : RAGCache) (query : String) (now : ℚ) :
    Option Emb × RAGCache :=
  let (e, ec) := rc.embedding_cache.get query now
  if optEmbTruthy e then
    (e, { rc with embedding_cache := ec,
                  embedding_hits := rc.embedding_hits + 1 })
  else
    (e, { rc with embedding_cache := ec,
                  embedding_misses := rc.embedding_misses + 1 })

/-- Model of `RAGCache.cache_embedding`. -/
def RAGCache.cache_embedding (rc : RAGCache) (query : String) (embedding : Emb)
    (now : ℚ) : RAGCache :=
  { rc with embedding_cache := rc.embedding_cache.set query embedding now }

/-- Model of `RAGCache.get_cached_results`: consult the semantic cache; a found
`CachedResult` (always truthy) counts a hit and its result list is returned,
otherwise a miss is counted. -/
def RAGCache.get_cached_results (sim : Emb → Emb → ℚ) (rc : RAGCache)
    (query_embedding : Emb) (dealership_id : ℤ) (now : ℚ) :
    Option (List ChunkResult) × RAGCache :=
  let (res, sc) := rc.semantic_cache.find_similar sim query_embedding
    dealership_id now
  match res with
  | some r =>
    (some r.results, { rc with semantic_cache := sc,
                               semantic_hits := rc.semantic_hits + 1 })
  | none =>
    (none, { rc with semantic_cache := sc,
                     semantic_misses := rc.semantic_misses + 1 })

/-- Model of `RAGCache.cache_results`. -/
def RAGCache.cache_results (rc : RAGCache) (query : String)
    (query_embedding : Emb) (results : List ChunkResult) (dealership_id : ℤ)
    (now : ℚ) : RAGCache :=
  { rc with semantic_cache :=
      rc.semantic_cache.store query query_embedding results dealership_id now }

/-- Model of `RAGCache.get_session_context`: a found context has its last-access time
refreshed (in place) and is returned; no expiry check happens here. -/
def RAGCache.get_session_context (rc : RAGCache) (session_id : String)
    (now : ℚ) : Option SessionContext × RAGCache :=
  match getA rc.session_contexts session_id with
  | none => (none, rc)
  | some ctx =>
    let ctx1 := { ctx with last_accessed := now }
    (some ctx1,
     { rc with session_contexts := setA rc.session_contexts session_id ctx1 })

/-- Model of `RAGCache.set_session_context`: delete every session idle for more than
3600 seconds (keep those with `now - last_accessed ≤ 3600`), then store a
fresh context for the given session id. -/
def RAGCache.set_session_context (rc : RAGCache) (session_id : String)
    (dealership_id : ℤ) (chunks : List ChunkResult) (embeddings : List Emb)
    (now : ℚ) : RAGCache :=
  let kept := rc.session_contexts.filter
    (fun e => decide (now - e.2.last_accessed ≤ 3600))
  let fresh : SessionContext :=
    { dealership_id := dealership_id, chunks := chunks,
      embeddings := embeddings, created_at := now, last_accessed := now }
  { rc with session_contexts := setA kept session_id fresh }

/-- Model of `RAGCache.clear_session_context`. -/
def RAGCache.clear_session_context (rc : RAGCache) (session_id : String) :
    RAGCache :=
  { rc with session_contexts := eraseA rc.session_contexts session_id }

/-- The comparison used to model Python `list.sort(key = score,
reverse = True)`: a stable sort placing higher scores first and preserving
array order among equal scores.  `insertionSort` with this total transitive
relation computes exactly that ordering. -/
def scoreGE (a b : ℚ × ChunkResult) : Prop := b.1 ≤ a.1

instance : DecidableRel scoreGE := fun a b =>
  inferInstanceAs (Decidable (b.1 ≤ a.1))

instance : IsTotal (ℚ × ChunkResult) scoreGE := ⟨fun a b => le_total b.1 a.1⟩

instance : IsTrans (ℚ × ChunkResult) scoreGE :=
  ⟨fun _ _ _ h1 h2 => le_trans h2 h1⟩

/-- Stable descending sort of scored chunks by score. -/
def sortDesc (l : List (ℚ × ChunkResult)) : List (ℚ × ChunkResult) :=
  l.insertionSort scoreGE

/-- Model of `RAGCache.search_session_context`: fetch the session context (refreshing
its last-access time), score every (embedding, chunk) pair against the query
(the source iterates the parallel arrays by index, which is the `zip` when
they have equal length), keep the pairs whose score reaches the threshold,
sort them by descending score (stable), and return the first `top_k` chunks. -/
def RAGCache.search_session_context (sim : Emb → Emb → ℚ) (rc : RAGCache)
    (session_id : String) (query_embedding : Emb) (top_k : ℕ) (threshold : ℚ)
    (now : ℚ) : List ChunkResult × RAGCache :=
  let (ctxOpt, rc1) := rc.get_session_context session_id now
  match ctxOpt with
  | none => ([], rc1)
  | some ctx =>
    if ctx.chunks.isEmpty then ([], rc1)
    else
      let pairs := (ctx.embeddings.zip ctx.chunks).filterMap
        (fun p =>
          let s := sim query_embedding p.1
          if s ≥ threshold then some (s, p.2) else none)
      (((sortDesc pairs).take top_k).map (fun p => p.2), rc1)

/-- Model of the `RAGCache.stats` session-context counter (rest omitted; the claims
use the explicit counters of the state). -/
def RAGCache.sessionCount (rc : RAGCache) : ℕ :=
  rc.session_contexts.length

/-! ## RAGService.query (`rag_service.py`)

The embedding provider and the Pinecone index are external collaborators; the
environment supplies them as functions.  `query` propagates their failures
uncaught, so its theorems describe runs in which the collaborators answer; the
pre-warm path, which catches per-query failures, uses a fallible environment
below.  The outcome records which stage produced the answer and how many
similarity-index calls were made, the observables the specification's testable
properties talk about. -/

/-- A raw match returned by the similarity index: the metadata fields read by
`query`/`prewarm_session` plus the vector values. -/
structure MatchRec where
  content : String
  topic : String
  filename : String
  score : ℚ
  values : Emb
  deriving DecidableEq, Repr

/-- External collaborators of `RAGService.query`: the embedding provider and
the similarity index (arguments: vector, top-k, dealership filter, topic
filter). -/
structure QueryEnv where
  embed : String → Emb
  indexQuery : Emb → ℕ → ℤ → Option (List String) → List MatchRec

/-- Which stage of the cascade produced the answer. -/
inductive QuerySource where
  | session
  | semanticCache
  | index
  deriving DecidableEq, Repr

/-- Result of one `query` call: the documents, the producing stage, the cache
state afterwards, and the number of similarity-index calls made. -/
structure QueryOutcome where
  results : List ChunkResult
  source : QuerySource
  cache : RAGCache
  indexCalls : ℕ
  deriving Repr

/-- Default `settings.RAG_TOP_K`. -/
def RAG_TOP_K : ℕ := 5

/-- The session-match threshold 0.7 of `RAGService.query`, stored in lowest
terms so that concrete comparisons against it evaluate by kernel reduction. -/
def sessionThreshold : ℚ := ⟨7, 10, by norm_num, by norm_num⟩

/-- Convert a Pinecone match to the result dict built by `query`. -/
def matchToChunk (m : MatchRec) : ChunkResult :=
  { content := m.content, topic := m.topic, filename := m.filename,
    score := m.score }

/-- Steps 5-6 of `RAGService.query`: call Pinecone with the tenant (and
optional topic) filter, format the matches, and populate the semantic cache
when caching is on, at least one document came back, and no topic filter was
given. -/
def queryIndexStage (env : QueryEnv) (rc : RAGCache) (query : String)
    (query_embedding : Emb) (dealership_id : ℤ) (topics : Option (List String))
    (top_k : ℕ) (use_cache : Bool) (now : ℚ) : QueryOutcome :=
  let rawMatches := env.indexQuery query_embedding top_k dealership_id topics
  let documents := rawMatches.map matchToChunk
  let rc1 :=
    if use_cache = true ∧ documents ≠ [] ∧ topics = none then
      rc.cache_results query query_embedding documents dealership_id now
    else rc
  { results := documents, source := .index, cache := rc1, indexCalls := 1 }

/-- Step 4 of `RAGService.query`: the semantic cache is consulted only when
caching is on and no topic filter was supplied; a truthy (non-empty) cached
result list is returned, anything else falls through to the index stage. -/
def querySemanticStage (env : QueryEnv) (sim : Emb → Emb → ℚ) (rc : RAGCache)
    (query : String) (query_embedding : Emb) (dealership_id : ℤ)
    (topics : Option (List String)) (top_k : ℕ) (use_cache : Bool) (now : ℚ) :
    QueryOutcome :=
  if use_cache = true ∧ topics = none then
    let (cachedOpt, rc1) := rc.get_cached_results sim query_embedding
      dealership_id now
    match cachedOpt with
    | some results =>
      if results ≠ [] then
        { results := results, source := .semanticCache, cache := rc1,
          indexCalls := 0 }
      else
        queryIndexStage env rc1 query query_embedding dealership_id topics
          top_k use_cache now
    | none =>
      queryIndexStage env rc1 query query_embedding dealership_id topics top_k
        use_cache now
  else
    queryIndexStage env rc query query_embedding dealership_id topics top_k
      use_cache now

/-- Model of `RAGService.query`: resolve `top_k or settings.RAG_TOP_K` (Python `or`
treats 0 and `None` alike), obtain the query embedding through the embedding
cache (steps 1-2), try the session context when a session id is given
(step 3, threshold 0.7), then the semantic cache (step 4) and the index
(steps 5-6). -/
def RAGService.query (env : QueryEnv) (sim : Emb → Emb → ℚ) (rc : RAGCache)
    (query : String) (dealership_id : ℤ) (topics : Option (List String))
    (top_k : Option ℕ) (use_cache : Bool) (session_id : Option String)
    (now : ℚ) : QueryOutcome :=
  let k := match top_k with
    | some n => if n = 0 then RAG_TOP_K else n
    | none => RAG_TOP_K
  let (embOpt, rc1) :=
    if use_cache then rc.get_cached_embedding query now else (none, rc)
  let (query_embedding, rc2) :=
    match embOpt with
    | some e => (e, rc1)
    | none =>
      let e := env.embed query
      (e, if use_cache then rc1.cache_embedding query e now else rc1)
  match use_cache, session_id with
  | true, some sid =>
    let (session_results, rc3) :=
      rc2.search_session_context sim sid query_embedding k sessionThreshold
        now
    if session_results ≠ [] then
      { results := session_results, source := .session, cache := rc3,
        indexCalls := 0 }
    else
      querySemanticStage env sim rc3 query query_embedding dealership_id
        topics k true now
  | _, _ =>
    querySemanticStage env sim rc2 query query_embedding dealership_id topics
      k use_cache now

/-! ## Ingestion (`rag_service.py`, `RAGService.upload_documents`)

The PostgreSQL session is modelled by explicit staged/committed metadata
states: `db.add`/`flush` extend the staged state (visible to later lookups of
the same call), `commit` makes it the result, and the `except` branch's
`rollback` returns the pre-call state.  Pinecone upserts are not transactional
and survive a rollback.  A `StoreError` is injected by the environment at the
flush performed for a given text position. -/

/-- A `documents` row. -/
structure DocumentRow where
  id : ℤ
  dealership_id : ℤ
  filename : String
  topic : String
  content_hash : String
  chunk_count : ℕ
  deriving DecidableEq, Repr

/-- A `document_chunks` row. -/
structure ChunkRow where
  document_id : ℤ
  dealership_id : ℤ
  chunk_index : ℕ
  content : String
  topic : String
  pinecone_id : String
  deriving DecidableEq, Repr

/-- The metadata store: both tables plus the autoincrement counter that
`flush` draws document ids from. -/
structure DBState where
  documents : List DocumentRow
  chunks : List ChunkRow
  nextDocId : ℤ
  deriving DecidableEq, Repr

/-- Metadata attached to an upserted vector. -/
structure VecMeta where
  document_id : ℤ
  dealership_id : ℤ
  chunk_index : ℕ
  topic : String
  filename : String
  content : String
  deriving DecidableEq, Repr

/-- One vector stored in the similarity index. -/
structure VecRecord where
  ns : String
  id : String
  values : Emb
  metadata : VecMeta
  deriving DecidableEq, Repr

/-- The similarity index contents. -/
structure VectorIndex where
  vectors : List VecRecord
  deriving DecidableEq, Repr

/-- Pinecone upsert: replace any vector with the same (namespace, id), else
append.  The source sends vectors in batches of 100; batching only changes
call granularity, not the resulting index contents, so the batches are folded
into one upsert per document here. -/
def VectorIndex.upsert (ix : VectorIndex) (nsp : String)
    (items : List (String × Emb × VecMeta)) : VectorIndex :=
  { vectors := items.foldl
      (fun vs item =>
        vs.filter (fun v => !(v.ns == nsp && v.id == item.1)) ++
          [{ ns := nsp, id := item.1, values := item.2.1,
             metadata := item.2.2 }])
      ix.vectors }

/-- Number of vectors in a dealership's namespace. -/
def VectorIndex.countNs (ix : VectorIndex) (nsp : String) : ℕ :=
  (ix.vectors.filter (fun v => v.ns == nsp)).length

/-- Model of `RAGService._get_namespace`. -/
def namespaceOf (dealership_id : ℤ) : String :=
  "dealership_" ++ toString dealership_id

/-- Model of `RAGService._generate_content_hash`, which computes a sha-256 hex digest; the
digest is modelled by its (injective) preimage, since the embedded operations
only compare hashes of texts for equality. -/
def contentHash (text : String) : String :=
  text

/-- The `StoreError` of the metadata store. -/
inductive StoreErr where
  | storeError
  deriving DecidableEq, Repr

/-- External collaborators and fault injection for `upload_documents`: the
text splitter, the batch embedding call, the uuid suffix supply (one fresh
suffix per document position and chunk index), and the position of the text
whose metadata flush raises `StoreError`, if any. -/
structure IngestEnv where
  split : String → List String
  embedDocs : List String → List Emb
  suffix : ℕ → ℕ → String
  failAt : Option ℕ

/-- The duplicate lookup of `upload_documents`: is there a document row with
this (dealership, filename, content hash)? -/
def findExistingDoc (db : DBState) (dealership_id : ℤ)
    (filename hash : String) : Bool :=
  db.documents.any (fun d =>
    d.dealership_id == dealership_id && d.filename == filename &&
      d.content_hash == hash)

/-- Model of `filenames[i] if filenames and i < len(filenames) else the default name`. -/
def fileNameAt (filenames : Option (List String)) (i : ℕ) : String :=
  match filenames with
  | some fs =>
    match fs.get? i with
    | some f => f
    | none => "document_" ++ toString i
  | none => "document_" ++ toString i

/-- The per-text loop of `upload_documents` over the enumerated texts,
threading the staged metadata state, the index, and the running chunk total.
A text is skipped when its (dealership, filename, hash) already has a row or
when the splitter returns no chunks; otherwise the document row is flushed
(where the injected `StoreError` strikes), chunk rows are staged, and the
document's vectors are upserted.  On error the loop stops, returning the index
as mutated so far. -/
def uploadLoop (env : IngestEnv) (dealership_id : ℤ) (topic : String)
    (filenames : Option (List String)) (nsp : String) :
    List (ℕ × String) → DBState → VectorIndex → ℕ →
    Except StoreErr (DBState × ℕ) × VectorIndex
  | [], db, ix, total => (.ok (db, total), ix)
  | (i, text) :: rest, db, ix, total =>
    let filename := fileNameAt filenames i
    let hash := contentHash text
    if findExistingDoc db dealership_id filename hash then
      uploadLoop env dealership_id topic filenames nsp rest db ix total
    else
      let chunks := env.split text
      if chunks.isEmpty then
        uploadLoop env dealership_id topic filenames nsp rest db ix total
      else if env.failAt = some i then
        (.error .storeError, ix)
      else
        let docId := db.nextDocId
        let document : DocumentRow :=
          { id := docId, dealership_id := dealership_id, filename := filename,
            topic := topic, content_hash := hash,
            chunk_count := chunks.length }
        let embs := env.embedDocs chunks
        let rows := (chunks.zip embs).enum.map (fun je =>
          let j := je.1
          let chunk := je.2.1
          let embedding := je.2.2
          let vector_id := "doc_" ++ toString docId ++ "_chunk_" ++
            toString j ++ "_" ++ env.suffix i j
          let row : ChunkRow :=
            { document_id := docId, dealership_id := dealership_id,
              chunk_index := j, content := chunk, topic := topic,
              pinecone_id := vector_id }
          let meta : VecMeta :=
            { document_id := docId, dealership_id := dealership_id,
              chunk_index := j, topic := topic, filename := filename,
              content := chunk.take 1000 }
          (row, vector_id, embedding, meta))
        let db1 : DBState :=
          { documents := db.documents ++ [document],
            chunks := db.chunks ++ rows.map (fun r => r.1),
            nextDocId := db.nextDocId + 1 }
        let ix1 := ix.upsert nsp (rows.map (fun r => r.2))
        uploadLoop env dealership_id topic filenames nsp rest db1 ix1
          (total + chunks.length)

/-- Model of `RAGService.upload_documents`: run the loop in one transaction; commit the
staged metadata on success, roll the whole transaction back (to the pre-call
metadata state) on `StoreError`, keeping the index upserts already made. -/
def RAGService.upload_documents (env : IngestEnv) (texts : List String)
    (dealership_id : ℤ) (topic : String) (filenames : Option (List String))
    (db : DBState) (ix : VectorIndex) :
    Except StoreErr ℕ × DBState × VectorIndex :=
  let nsp := namespaceOf dealership_id
  match uploadLoop env dealership_id topic filenames nsp texts.enum db ix 0 with
  | (.ok (db1, total), ix1) => (.ok total, db1, ix1)
  | (.error e, ix1) => (.error e, db, ix1)

/-! ## Pre-warming (`rag_service.py`, `RAGService.prewarm_session`) -/

/-- Fallible collaborators for the pre-warm path: each embedding-provider and
index call may raise, and the per-query `try` catches the failure. -/
structure PrewarmEnv where
  embed : String → Except Unit Emb
  indexQuery : Emb → ℕ → ℤ → Except Unit (List MatchRec)

/-- The fixed warm-up battery of `prewarm_session`. -/
def warmupQueries : List String :=
  ["What F&I products and services do we offer?",
   "How do I handle customer objections about price?",
   "What are the benefits of extended warranty coverage?",
   "GAP insurance coverage and benefits",
   "How to present finance options to customers",
   "Common customer concerns and how to address them",
   "Vehicle service contract features",
   "Compliance requirements for F&I"]

/-- Collect the matches of one warm-up query, skipping chunks whose content
digest was already seen (the 16-hex sha-256 digest is modelled by the content
itself). -/
def collectMatches (ms : List MatchRec)
    (st : List ChunkResult × List Emb × List String) :
    List ChunkResult × List Emb × List String :=
  ms.foldl
    (fun acc m =>
      let (chunks, embs, seen) := acc
      if m.content ∈ seen then acc
      else (chunks ++ [matchToChunk m], embs ++ [m.values],
            seen ++ [m.content]))
    st

/-- One iteration of the pre-warm loop: obtain the query embedding through the
embedding cache (`if not embedding`, so a falsy cached value is regenerated),
query the index filtered to the dealership, and collect deduplicated chunks;
a failing embedding or index call is caught, keeping the cache effects made so
far and leaving the accumulators untouched. -/
def prewarmStep (env : PrewarmEnv) (dealership_id : ℤ) (top_k_per_query : ℕ)
    (now : ℚ) (st : RAGCache × List ChunkResult × List Emb × List String)
    (query : String) :
    RAGCache × List ChunkResult × List Emb × List String :=
  let (rc, chunks, embs, seen) := st
  let (eOpt, rc1) := rc.get_cached_embedding query now
  match (if optEmbTruthy eOpt then .ok (eOpt.getD []) else env.embed query :
      Except Unit Emb) with
  | .error _ => (rc1, chunks, embs, seen)
  | .ok embedding =>
    let rc2 :=
      if optEmbTruthy eOpt then rc1
      else rc1.cache_embedding query embedding now
    match env.indexQuery embedding top_k_per_query dealership_id with
    | .error _ => (rc2, chunks, embs, seen)
    | .ok ms =>
      let (chunks1, embs1, seen1) := collectMatches ms (chunks, embs, seen)
      (rc2, chunks1, embs1, seen1)

/-- The stats dict returned by `prewarm_session` (elapsed time omitted). -/
structure PrewarmStats where
  chunks_prewarmed : ℕ
  queries_run : ℕ
  deriving DecidableEq, Repr

/-- Model of `RAGService.prewarm_session`: run the warm-up battery, then store the
session context only when at least one chunk was collected, and report the
chunk count and the full battery size. -/
def RAGService.prewarm_session (env : PrewarmEnv) (rc : RAGCache)
    (session_id : String) (dealership_id : ℤ) (top_k_per_query : ℕ)
    (now : ℚ) : PrewarmStats × RAGCache :=
  let st := warmupQueries.foldl
    (prewarmStep env dealership_id top_k_per_query now) (rc, [], [], [])
  let rc1 := st.1
  let all_chunks := st.2.1
  let all_embeddings := st.2.2.1
  let rc2 :=
    if all_chunks ≠ [] then
      rc1.set_session_context session_id dealership_id all_chunks
        all_embeddings now
    else rc1
  ({ chunks_prewarmed := all_chunks.length,
     queries_run := warmupQueries.length }, rc2)

/-! ## Helper lemmas and the witness similarity -/

/-- Rational dot product; for unit vectors this is exactly cosine similarity,
and concrete witnesses use it as the similarity function. -/
def dotSim (a b : Emb) : ℚ :=
  (List.zipWith (fun x y => x * y) a b).sum

/-! ## Derived definitions, concrete instances and inputs used by witnesses -/

/-- Insert a list of (key, value) pairs in order, all at the same time. -/
def LRUCache.setAll {α : Type} (c : LRUCache α) (kvs : List (String × α))
    (now : ℚ) : LRUCache α :=
  kvs.foldl (fun c kv => c.set kv.1 kv.2 now) c

/-- An entry of the per-dealership list is live when its key has a result row
whose age is within the time-to-live. -/
def liveEntry (cache : List (String × CachedResult)) (ttl now : ℚ)
    (e : String × Emb) : Bool :=
  match getA cache e.1 with
  | some c => decide (now - c.timestamp ≤ ttl)
  | none => false

/-- An entry whose key has a result row that has outlived the time-to-live
(the scan deletes exactly these rows). -/
def deadKey (cache : List (String × CachedResult)) (ttl now : ℚ)
    (e : String × Emb) : Bool :=
  match getA cache e.1 with
  | some c => decide (now - c.timestamp > ttl)
  | none => false

/-- The pure best-match selection of the scan, separated from the cache
mutation: fold the candidate list, accepting an entry when its similarity
strictly exceeds the running best (initially 0) and reaches the threshold. -/
def bestFold (sim : Emb → Emb → ℚ) (q : Emb) (threshold : ℚ) :
    List (String × Emb) → Option String → ℚ → Option String × ℚ
  | [], best, bestSim => (best, bestSim)
  | (k, emb) :: rest, best, bestSim =>
    let s := sim q emb
    if s > bestSim ∧ s ≥ threshold then
      bestFold sim q threshold rest (some k) s
    else
      bestFold sim q threshold rest best bestSim

/-- A concrete cached row used by witnesses. -/
def crW : CachedResult :=
  { results := [{ content := "a", topic := "t", filename := "f", score := 1 }],
    embedding := [1], timestamp := 0, hit_count := 0 }

/-- A concrete one-entry semantic cache used by witnesses. -/
def semW : SemanticCache :=
  { maxsize := 500, similarity_threshold := 92/100, ttl_seconds := 1800,
    cache := [("1:q", crW)], embeddings := [("1", [("1:q", [1])])] }

/-- A concrete session context used by the C4 refutation. -/
def ctxW : SessionContext :=
  { dealership_id := 1,
    chunks := [{ content := "a", topic := "t", filename := "f", score := 1 }],
    embeddings := [[1]], created_at := 0, last_accessed := 0 }

/-- A cache holding one session stored at time 0. -/
def rcW : RAGCache :=
  { RAGCache.init with session_contexts := [("s", ctxW)] }

/-- Concrete ingestion environment whose second document's flush raises
`StoreError`: one chunk per document, constant embeddings and suffixes. -/
def ingestEnvW : IngestEnv :=
  { split := fun t => [t], embedDocs := fun ts => ts.map (fun _ => [1]),
    suffix := fun _ _ => "x", failAt := some 1 }

/-- Concrete ingestion environment with no injected failure. -/
def ingestEnvOk : IngestEnv :=
  { split := fun t => [t], embedDocs := fun ts => ts.map (fun _ => [1]),
    suffix := fun _ _ => "x", failAt := none }

/-- The empty metadata store. -/
def dbEmpty : DBState := { documents := [], chunks := [], nextDocId := 1 }

/-- The empty similarity index. -/
def ixEmpty : VectorIndex := { vectors := [] }

/-- The document row of the concrete single-document upload. -/
def docRowW : DocumentRow :=
  { id := 1, dealership_id := 1, filename := "document_0", topic := "t",
    content_hash := "aaa", chunk_count := 1 }

/-- The vector id of the concrete single-document upload (kept in the shape
the code builds so that witnesses evaluate cheaply). -/
def pineIdW : String :=
  "doc_" ++ toString (1 : ℤ) ++ "_chunk_" ++ toString 0 ++ "_" ++ "x"

/-- The chunk row of the concrete single-document upload. -/
def chunkRowW : ChunkRow :=
  { document_id := 1, dealership_id := 1, chunk_index := 0, content := "aaa",
    topic := "t", pinecone_id := pineIdW }

/-- The vector metadata of the concrete single-document upload. -/
def vecMetaW : VecMeta :=
  { document_id := 1, dealership_id := 1, chunk_index := 0, topic := "t",
    filename := "document_0", content := ("aaa" : String).take 1000 }

/-- The metadata store after the concrete single-document upload. -/
def db1W : DBState :=
  { documents := [docRowW], chunks := [chunkRowW], nextDocId := 2 }

/-- The vector record of the concrete single-document upload. -/
def vecW : VecRecord :=
  { ns := "dealership_1", id := pineIdW, values := [1], metadata := vecMetaW }

/-- The index after the concrete single-document upload. -/
def ix1W : VectorIndex := { vectors := [vecW] }

/-- A chunk belonging to dealership 2's knowledge base. -/
def chunkB : ChunkResult :=
  { content := "tenant2-secret", topic := "t", filename := "f", score := 1 }

/-- A session context pre-warmed for dealership 2. -/
def ctxB : SessionContext :=
  { dealership_id := 2, chunks := [chunkB], embeddings := [[1]],
    created_at := 0, last_accessed := 0 }

/-- A cache whose session "s" belongs to dealership 2. -/
def rcB : RAGCache :=
  { RAGCache.init with session_contexts := [("s", ctxB)] }

/-- A query environment with a constant embedding and an index that returns
nothing (so any returned chunk can only come from a cache). -/
def envQ : QueryEnv :=
  { embed := fun _ => [1], indexQuery := fun _ _ _ _ => [] }

/-- The constant similarity 1 (the cosine similarity of identical unit
vectors), used for concrete evaluations. -/
def oneSim : Emb → Emb → ℚ := fun _ _ => 1

/-- A match returned by the index during pre-warming. -/
def mW : MatchRec :=
  { content := "c", topic := "t", filename := "f", score := 1, values := [1] }

/-- A pre-warm environment whose index returns the single match `mW` for
every warm-up query. -/
def envP : PrewarmEnv :=
  { embed := fun _ => .ok [1], indexQuery := fun _ _ _ => .ok [mW] }

theorem getA_nil {β : Type} (k : String) : getA ([] : List (String × β)) k = none := rfl

theorem getA_cons {β : Type} (k' : String) (v : β) (m : List (String × β))
    (k : String) :
    getA ((k', v) :: m) k = if k' = k then some v else getA m k := by
  by_cases h : k' = k
  · subst h
    simp [getA, List.find?]
  · have hb : (k' == k) = false := beq_eq_false_iff_ne.mpr h
    simp [getA, List.find?, hb, h]

theorem getA_setA_self {β : Type} (m : List (String × β)) (k : String) (v : β) :
    getA (setA m k v) k = some v := by
  induction m with
  | nil => simp [setA, getA_cons]
  | cons e m ih =>
    obtain ⟨k', v'⟩ := e
    by_cases h : k' = k
    · simp [setA, h, getA_cons]
    · have hb : (k' == k) = false := beq_eq_false_iff_ne.mpr h
      simp [setA, hb, getA_cons, h, ih]

theorem getA_setA_ne {β : Type} (m : List (String × β)) (k k' : String) (v : β)
    (h : k' ≠ k) : getA (setA m k v) k' = getA m k' := by
  have hne : k ≠ k' := Ne.symm h
  induction m with
  | nil => simp [setA, getA_cons, hne, getA_nil]
  | cons e m ih =>
    obtain ⟨k₀, v₀⟩ := e
    by_cases h0 : k₀ = k
    · subst h0
      have hb : (k₀ == k₀) = true := beq_self_eq_true k₀
      simp [setA, hb, getA_cons, hne]
    · have hb : (k₀ == k) = false := beq_eq_false_iff_ne.mpr h0
      simp only [setA, hb, Bool.false_eq_true, if_false, getA_cons]
      by_cases h1 : k₀ = k'
      · simp [h1]
      · simp [h1, ih]

theorem getA_eq_of_mem {β : Type} {m : List (String × β)} {k : String} {v : β}
    (hnd : (m.map Prod.fst).Nodup) (hm : (k, v) ∈ m) : getA m k = some v := by
  induction m with
  | nil => cases hm
  | cons e m ih =>
    obtain ⟨k₀, v₀⟩ := e
    simp only [List.map_cons, List.nodup_cons] at hnd
    rcases List.mem_cons.mp hm with h | h
    · cases h
      simp [getA_cons]
    · have hk : k₀ ≠ k := by
        intro hh
        exact hnd.1 (hh ▸ (List.mem_map.mpr ⟨(k, v), h, rfl⟩))
      simp [getA_cons, hk, ih hnd.2 h]

theorem getA_filter_of_mem_false {β : Type} {m : List (String × β)}
    {k : String} {v : β} (p : String × β → Bool)
    (hnd : (m.map Prod.fst).Nodup) (hm : (k, v) ∈ m) (hp : p (k, v) = false) :
    getA (m.filter p) k = none := by
  induction m with
  | nil => cases hm
  | cons e m ih =>
    obtain ⟨k₀, v₀⟩ := e
    simp only [List.map_cons, List.nodup_cons] at hnd
    rcases List.mem_cons.mp hm with h | h
    · cases h
      have hnone : getA (m.filter p) k = none := by
        cases hfind : (m.filter p).find? (fun e => e.1 == k) with
        | none => simp [getA, hfind]
        | some e =>
          have hmem : e ∈ m.filter p := List.mem_of_find?_eq_some hfind
          have hkey : e.1 = k := by
            have := List.find?_some hfind
            simpa using this
          exact absurd (List.mem_map.mpr ⟨e, List.mem_of_mem_filter hmem, hkey⟩)
            hnd.1
      simp [List.filter_cons, hp, hnone]
    · have hk : k₀ ≠ k := by
        intro hh
        exact hnd.1 (hh ▸ (List.mem_map.mpr ⟨(k, v), h, rfl⟩))
      rcases hp0 : p (k₀, v₀) with _ | _
      · simp [List.filter_cons, hp0, ih hnd.2 h]
      · simp [List.filter_cons, hp0, getA_cons, hk, ih hnd.2 h]

theorem getA_filter_of_mem_true {β : Type} {m : List (String × β)}
    {k : String} {v : β} (p : String × β → Bool)
    (hnd : (m.map Prod.fst).Nodup) (hm : (k, v) ∈ m) (hp : p (k, v) = true) :
    getA (m.filter p) k = some v := by
  induction m with
  | nil => cases hm
  | cons e m ih =>
    obtain ⟨k₀, v₀⟩ := e
    simp only [List.map_cons, List.nodup_cons] at hnd
    rcases List.mem_cons.mp hm with h | h
    · cases h
      simp [List.filter_cons, hp, getA_cons]
    · have hk : k₀ ≠ k := by
        intro hh
        exact hnd.1 (hh ▸ (List.mem_map.mpr ⟨(k, v), h, rfl⟩))
      rcases hp0 : p (k₀, v₀) with _ | _
      · simp [List.filter_cons, hp0, ih hnd.2 h]
      · simp [List.filter_cons, hp0, getA_cons, hk, ih hnd.2 h]

theorem getA_none_of_not_mem_keys {β : Type} {m : List (String × β)}
    {k : String} (h : k ∉ m.map Prod.fst) : getA m k = none := by
  induction m with
  | nil => rfl
  | cons e m ih =>
    obtain ⟨k₀, v₀⟩ := e
    simp only [List.map_cons, List.mem_cons] at h
    push_neg at h
    have h1 : k₀ ≠ k := Ne.symm h.1
    simp [getA_cons, h1, ih h.2]

theorem getA_eraseA_ne {β : Type} (m : List (String × β)) (k k' : String)
    (h : k' ≠ k) : getA (eraseA m k) k' = getA m k' := by
  induction m with
  | nil => rfl
  | cons e m ih =>
    obtain ⟨k₀, v₀⟩ := e
    by_cases h0 : k₀ = k
    · subst h0
      have hb : (k₀ != k₀) = false := by simp
      simp only [eraseA, List.filter_cons, hb, Bool.false_eq_true, if_false]
      rw [show (List.filter (fun e => e.1 != k₀) m) = eraseA m k₀ from rfl]
      rw [ih, getA_cons]
      simp [Ne.symm h]
    · have hb : (k₀ != k) = true := by simp [h0]
      simp only [eraseA, List.filter_cons, hb, if_true]
      rw [getA_cons, show (List.filter (fun e => e.1 != k) m) = eraseA m k
        from rfl, getA_cons, ih]

theorem keys_setA_of_mem {β : Type} {m : List (String × β)} {k : String}
    {w : β} (hm : getA m k = some w) (v : β) :
    (setA m k v).map Prod.fst = m.map Prod.fst := by
  induction m with
  | nil => simp [getA_nil] at hm
  | cons e m ih =>
    obtain ⟨k₀, v₀⟩ := e
    by_cases h0 : k₀ = k
    · subst h0
      simp [setA]
    · have hb : (k₀ == k) = false := beq_eq_false_iff_ne.mpr h0
      rw [getA_cons] at hm
      simp only [h0, if_false] at hm
      simp [setA, hb, ih hm]

/-! ## C9: the sweep inside `set_session_context` -/

/-- C9: after `set_session_context`, every previously stored session idle for
more than 3600 seconds is absent, every other previously stored session (with
a different id) is unchanged, and the given session id maps to the freshly
constructed context; moreover this store is the only removal point for idle
sessions: a lookup never changes the set of stored session ids, and an
explicit clear removes no session other than its own. -/
theorem C9_set_session_context_sweep
    (rc : RAGCache) (sid : String) (dealer : ℤ) (chunks : List ChunkResult)
    (embs : List Emb) (now : ℚ)
    (hnd : (rc.session_contexts.map Prod.fst).Nodup) :
    (getA (rc.set_session_context sid dealer chunks embs now).session_contexts
        sid =
      some { dealership_id := dealer, chunks := chunks, embeddings := embs,
             created_at := now, last_accessed := now }) ∧
    (∀ sid' ctx, sid' ≠ sid → (sid', ctx) ∈ rc.session_contexts →
      (now - ctx.last_accessed > 3600 →
        getA (rc.set_session_context sid dealer chunks embs
          now).session_contexts sid' = none) ∧
      (now - ctx.last_accessed ≤ 3600 →
        getA (rc.set_session_context sid dealer chunks embs
          now).session_contexts sid' = some ctx)) ∧
    (∀ s now', ((rc.get_session_context s now').2.session_contexts.map
        Prod.fst) = rc.session_contexts.map Prod.fst) ∧
    (∀ s s', s' ≠ s →
      getA (rc.clear_session_context s).session_contexts s' =
        getA rc.session_contexts s') := by
  refine ⟨?_, ?_, ?_, ?_⟩
  · exact getA_setA_self _ _ _
  · intro sid' ctx hne hmem
    constructor
    · intro hidle
      rw [RAGCache.set_session_context]
      simp only
      rw [getA_setA_ne _ _ _ _ hne]
      exact getA_filter_of_mem_false _ hnd hmem
        (decide_eq_false (not_le.mpr hidle))
    · intro hfresh
      rw [RAGCache.set_session_context]
      simp only
      rw [getA_setA_ne _ _ _ _ hne]
      exact getA_filter_of_mem_true _ hnd hmem (decide_eq_true hfresh)
  · intro s now'
    rw [RAGCache.get_session_context]
    cases hg : getA rc.session_contexts s with
    | none => rfl
    | some ctx =>
      simp only
      exact keys_setA_of_mem hg _
  · intro s s' hne
    exact getA_eraseA_ne _ _ _ hne

/-- Witness for C9 at a concrete cache holding one idle and one fresh
session. -/
theorem C9_set_session_context_sweep_witness :
    (getA ((RAGCache.init).set_session_context "s" 1 [] [] 0).session_contexts
        "s" =
      some { dealership_id := 1, chunks := [], embeddings := [],
             created_at := 0, last_accessed := 0 }) := by
  have h := C9_set_session_context_sweep RAGCache.init "s" 1 [] [] 0
    (by simp [RAGCache.init])
  exact h.1

/-! ## C10: an empty pre-warm run -/

theorem get_cached_embedding_sessions (rc : RAGCache) (q : String) (now : ℚ) :
    (rc.get_cached_embedding q now).2.session_contexts =
      rc.session_contexts := by
  rw [RAGCache.get_cached_embedding]
  split
  split <;> rfl

theorem cache_embedding_sessions (rc : RAGCache) (q : String) (e : Emb)
    (now : ℚ) :
    (rc.cache_embedding q e now).session_contexts = rc.session_contexts := rfl

theorem prewarmStep_empty (env : PrewarmEnv) (dealer : ℤ) (k : ℕ) (now : ℚ)
    (st : RAGCache × List ChunkResult × List Emb × List String) (q : String)
    (h : ∀ e, env.indexQuery e k dealer = .error () ∨
      env.indexQuery e k dealer = .ok []) :
    (prewarmStep env dealer k now st q).1.session_contexts =
      st.1.session_contexts ∧
    (prewarmStep env dealer k now st q).2 = st.2 := by
  obtain ⟨rc, chunks, embs, seen⟩ := st
  rw [prewarmStep]
  simp only
  set rc1 := (rc.get_cached_embedding q now).2 with hrc1
  have hs1 : rc1.session_contexts = rc.session_contexts :=
    get_cached_embedding_sessions rc q now
  cases hemb : (if optEmbTruthy (rc.get_cached_embedding q now).1 then
      .ok ((rc.get_cached_embedding q now).1.getD []) else env.embed q :
      Except Unit Emb) with
  | error _ => simpa [hemb] using hs1
  | ok embedding =>
    simp only [hemb]
    set rc2 := (if optEmbTruthy (rc.get_cached_embedding q now).1 then rc1
      else rc1.cache_embedding q embedding now) with hrc2
    have hs2 : rc2.session_contexts = rc.session_contexts := by
      rw [hrc2]
      split
      · exact hs1
      · rw [cache_embedding_sessions, hs1]
    rcases h embedding with hq | hq <;> simp [hq, collectMatches, hs2]

theorem prewarmFold_empty (env : PrewarmEnv) (dealer : ℤ) (k : ℕ) (now : ℚ)
    (qs : List String)
    (h : ∀ e, env.indexQuery e k dealer = .error () ∨
      env.indexQuery e k dealer = .ok []) :
    ∀ st : RAGCache × List ChunkResult × List Emb × List String,
      (qs.foldl (prewarmStep env dealer k now) st).1.session_contexts =
        st.1.session_contexts ∧
      (qs.foldl (prewarmStep env dealer k now) st).2 = st.2 := by
  induction qs with
  | nil => intro st; exact ⟨rfl, rfl⟩
  | cons q qs ih =>
    intro st
    have hstep := prewarmStep_empty env dealer k now st q h
    have hrest := ih (prewarmStep env dealer k now st q)
    refine ⟨?_, ?_⟩
    · rw [List.foldl_cons, hrest.1, hstep.1]
    · rw [List.foldl_cons, hrest.2, hstep.2]

/-- C10: when every warm-up query fails or yields no matches, `prewarm_session`
creates no session context and leaves every stored session context (in
particular any existing one for the given session id) unchanged, while still
returning `chunks_prewarmed = 0` and `queries_run` equal to the full warm-up
battery size (8). -/
theorem C10_prewarm_empty (env : PrewarmEnv) (rc : RAGCache)
    (session_id : String) (dealership_id : ℤ) (top_k_per_query : ℕ) (now : ℚ)
    (h : ∀ e, env.indexQuery e top_k_per_query dealership_id = .error () ∨
      env.indexQuery e top_k_per_query dealership_id = .ok []) :
    (RAGService.prewarm_session env rc session_id dealership_id
        top_k_per_query now).2.session_contexts = rc.session_contexts ∧
    (RAGService.prewarm_session env rc session_id dealership_id
        top_k_per_query now).1.chunks_prewarmed = 0 ∧
    (RAGService.prewarm_session env rc session_id dealership_id
        top_k_per_query now).1.queries_run = 8 := by
  have hfold := prewarmFold_empty env dealership_id top_k_per_query now
    warmupQueries h (rc, [], [], [])
  have hchunks : (warmupQueries.foldl
      (prewarmStep env dealership_id top_k_per_query now)
        (rc, [], [], [])).2.1 = [] := by
    rw [hfold.2]
  rw [RAGService.prewarm_session]
  refine ⟨?_, ?_, ?_⟩
  · simp only [hchunks, ne_eq, not_true_eq_false, if_false]
    exact hfold.1
  · simp only [hchunks]
    rfl
  · rfl

/-- Witness for C10: a dead index (every call raising) pre-warms nothing and
touches no session. -/
theorem C10_prewarm_empty_witness :
    (RAGService.prewarm_session
        { embed := fun _ => .ok [1], indexQuery := fun _ _ _ => .error () }
        RAGCache.init "s" 1 3 0).2.session_contexts =
      RAGCache.init.session_contexts ∧
    (RAGService.prewarm_session
        { embed := fun _ => .ok [1], indexQuery := fun _ _ _ => .error () }
        RAGCache.init "s" 1 3 0).1.chunks_prewarmed = 0 ∧
    (RAGService.prewarm_session
        { embed := fun _ => .ok [1], indexQuery := fun _ _ _ => .error () }
        RAGCache.init "s" 1 3 0).1.queries_run = 8 :=
  C10_prewarm_empty
    { embed := fun _ => .ok [1], indexQuery := fun _ _ _ => .error () }
    RAGCache.init "s" 1 3 0 (fun _ => Or.inl rfl)

/-! ## C7: LRU eviction in the embedding cache -/

theorem filter_ne_of_fresh {α : Type} (l : List (String × α × ℚ)) (k : String)
    (hfresh : k ∉ l.map (fun e => e.1)) :
    l.filter (fun e => e.1 != k) = l := by
  apply List.filter_eq_self.mpr
  intro e he
  have hne : e.1 ≠ k := fun hh => hfresh (hh ▸ List.mem_map.mpr ⟨e, he, rfl⟩)
  simpa using hne

theorem LRUCache.set_fresh_room {α : Type} (c : LRUCache α) (k : String)
    (v : α) (now : ℚ) (hfresh : k ∉ c.keys)
    (hroom : c.cache.length < c.maxsize) :
    (c.set k v now).cache = c.cache ++ [(k, v, now)] := by
  rw [LRUCache.set]
  simp only
  rw [filter_ne_of_fresh c.cache k hfresh]
  have hdrop : c.cache.length + 1 - c.maxsize = 0 := by omega
  rw [hdrop, List.drop_zero]

theorem LRUCache.set_full_evicts {α : Type} (c : LRUCache α) (k : String)
    (v : α) (now : ℚ) (hfresh : k ∉ c.keys)
    (hfull : c.cache.length = c.maxsize) :
    (c.set k v now).cache = c.cache.tail ++ [(k, v, now)] := by
  rw [LRUCache.set]
  simp only
  rw [filter_ne_of_fresh c.cache k hfresh]
  have hdrop : c.cache.length + 1 - c.maxsize = 1 := by omega
  rw [hdrop, List.drop_one]

theorem LRUCache.setAll_fresh {α : Type} (kvs : List (String × α)) :
    ∀ c : LRUCache α, ∀ now : ℚ,
    (∀ k ∈ kvs.map Prod.fst, k ∉ c.keys) → (kvs.map Prod.fst).Nodup →
    c.cache.length + kvs.length ≤ c.maxsize →
    (c.setAll kvs now).cache =
      c.cache ++ kvs.map (fun kv => (kv.1, kv.2, now)) ∧
    (c.setAll kvs now).maxsize = c.maxsize ∧
    (c.setAll kvs now).ttl_seconds = c.ttl_seconds := by
  induction kvs with
  | nil => intro c now _ _ _; simp [LRUCache.setAll]
  | cons kv kvs ih =>
    intro c now hfresh hnd hroom
    obtain ⟨k, v⟩ := kv
    have hstep : (c.set k v now).cache = c.cache ++ [(k, v, now)] :=
      LRUCache.set_fresh_room c k v now
        (hfresh k (by simp)) (by simp at hroom; omega)
    have hkeys : (c.set k v now).keys = c.keys ++ [k] := by
      rw [LRUCache.keys, hstep]
      simp [LRUCache.keys]
    have hmax : (c.set k v now).maxsize = c.maxsize := rfl
    have httl : (c.set k v now).ttl_seconds = c.ttl_seconds := rfl
    simp only [List.map_cons, List.nodup_cons] at hnd
    have hrest := ih (c.set k v now) now
      (by
        intro k' hk'
        rw [hkeys]
        intro hmem
        rcases List.mem_append.mp hmem with h | h
        · exact hfresh k' (by simp [hk']) h
        · simp at h
          exact hnd.1 (h ▸ hk'))
      hnd.2
      (by
        rw [hstep]
        simp at hroom ⊢
        omega)
    rw [LRUCache.setAll] at hrest ⊢
    rw [List.foldl_cons]
    refine ⟨?_, ?_, ?_⟩
    · rw [hrest.1, hstep]
      simp
    · rw [hrest.2.1, hmax]
    · rw [hrest.2.2, httl]

theorem find?_eq_of_mem_nodup {β : Type} {m : List (String × β)} {k : String}
    {v : β} (hnd : (m.map Prod.fst).Nodup) (hm : (k, v) ∈ m) :
    m.find? (fun e => e.1 == k) = some (k, v) := by
  induction m with
  | nil => cases hm
  | cons e m ih =>
    obtain ⟨k₀, v₀⟩ := e
    simp only [List.map_cons, List.nodup_cons] at hnd
    rcases List.mem_cons.mp hm with h | h
    · cases h
      simp [List.find?]
    · have hk : k₀ ≠ k := by
        intro hh
        exact hnd.1 (hh ▸ (List.mem_map.mpr ⟨(k, v), h, rfl⟩))
      have hb : (k₀ == k) = false := beq_eq_false_iff_ne.mpr hk
      simp only [List.find?, hb]
      exact ih hnd.2 h

theorem keys_filter_ne {α : Type} (l : List (String × α × ℚ)) (k : String) :
    (l.filter (fun e => e.1 != k)).map (fun e => e.1) =
      (l.map (fun e => e.1)).filter (fun x => x != k) := by
  induction l with
  | nil => rfl
  | cons e l ih =>
    by_cases h : e.1 = k
    · simp [List.filter_cons, h, ih]
    · simp [List.filter_cons, h, ih]

/-- C7: (a) inserting N+1 distinct entries into an empty `LRUCache` of
capacity N ≥ 1 leaves exactly N entries, the first-inserted key being the
absent one when no reads intervene; (b) on any full cache an insert of a fresh
key evicts exactly the front entry, which is the least recently used one by
access order, because (c) every successful `get` moves its entry to the
most-recently-used back position. -/
theorem C7_embedding_cache_lru_eviction {α : Type} (N : ℕ) (hN : 1 ≤ N)
    (kvs : List (String × α)) (hlen : kvs.length = N + 1)
    (hnd : (kvs.map Prod.fst).Nodup) (ttl now : ℚ) :
    (({ maxsize := N, ttl_seconds := ttl, cache := [] } :
        LRUCache α).setAll kvs now).keys = (kvs.map Prod.fst).drop 1 ∧
    (({ maxsize := N, ttl_seconds := ttl, cache := [] } :
        LRUCache α).setAll kvs now).size = N ∧
    (∀ c : LRUCache α, ∀ k v, c.cache.length = c.maxsize → k ∉ c.keys →
      (c.set k v now).keys = c.keys.tail ++ [k]) ∧
    (∀ c : LRUCache α, ∀ k v ts, c.keys.Nodup → (k, v, ts) ∈ c.cache →
      now - ts ≤ c.ttl_seconds →
      (c.get k now).1 = some v ∧
      (c.get k now).2.keys = c.keys.filter (fun x => x != k) ++ [k]) := by
  have htailkeys : ∀ l : List (String × α × ℚ),
      List.map (fun e => e.1) l.tail = (List.map (fun e => e.1) l).tail := by
    intro l
    cases l <;> rfl
  have hmain : (({ maxsize := N, ttl_seconds := ttl, cache := [] } :
      LRUCache α).setAll kvs now).keys = (kvs.map Prod.fst).drop 1 := by
    have hne : kvs ≠ [] := by
      intro h
      rw [h] at hlen
      simp at hlen
    obtain ⟨front, last, rfl⟩ : ∃ front last, kvs = front ++ [last] :=
      ⟨kvs.dropLast, kvs.getLast hne, (List.dropLast_append_getLast hne).symm⟩
    have hflen : front.length = N := by
      simpa using hlen
    have hndf : ((front ++ [last]).map Prod.fst).Nodup := hnd
    rw [List.map_append, List.nodup_append] at hndf
    have hfront := LRUCache.setAll_fresh front
      ({ maxsize := N, ttl_seconds := ttl, cache := [] } : LRUCache α) now
      (by intro k _ hk; simp [LRUCache.keys] at hk)
      hndf.1
      (by simp [hflen])
    rw [LRUCache.setAll] at hfront
    rw [LRUCache.setAll, List.foldl_append, List.foldl_cons, List.foldl_nil]
    set c1 := List.foldl (fun c kv => c.set kv.1 kv.2 now)
      ({ maxsize := N, ttl_seconds := ttl, cache := [] } : LRUCache α) front
      with hc1
    have hc1cache : c1.cache = front.map (fun kv => (kv.1, kv.2, now)) := by
      rw [hfront.1]
      simp
    have hc1keys : c1.keys = front.map Prod.fst := by
      rw [LRUCache.keys, hc1cache]
      simp
    have hc1len : c1.cache.length = c1.maxsize := by
      rw [hc1cache, hfront.2.1]
      simp [hflen]
    have hfreshlast : last.1 ∉ c1.keys := by
      rw [hc1keys]
      intro hmem
      exact (hndf.2.2 hmem) (by simp)
    have hev := LRUCache.set_full_evicts c1 last.1 last.2 now hfreshlast hc1len
    rw [LRUCache.keys, hev, List.map_append, htailkeys]
    have hfne : front ≠ [] := by
      intro h
      rw [h] at hflen
      simp at hflen
      omega
    rw [List.map_append, List.drop_append_of_le_length (by simp; omega),
      List.drop_one]
    have : List.map (fun e => (e.1 : String)) c1.cache =
        front.map Prod.fst := hc1keys
    rw [this]
    simp
  refine ⟨hmain, ?_, ?_, ?_⟩
  · have hlen2 : (({ maxsize := N, ttl_seconds := ttl, cache := [] } :
        LRUCache α).setAll kvs now).keys.length =
        ((kvs.map Prod.fst).drop 1).length := by rw [hmain]
    rw [LRUCache.keys, List.length_map] at hlen2
    rw [LRUCache.size, hlen2]
    simp [hlen]
  · intro c k v hfull hfresh
    have hev := LRUCache.set_full_evicts c k v now hfresh hfull
    rw [LRUCache.keys, hev, List.map_append, htailkeys]
    rfl
  · intro c k v ts hndk hmem hlive
    have hfind : c.cache.find? (fun e => e.1 == k) = some (k, v, ts) :=
      find?_eq_of_mem_nodup (by simpa [LRUCache.keys] using hndk) hmem
    have hcond : ¬(now - ts > c.ttl_seconds) := not_lt.mpr hlive
    have hget : c.get k now = (some v,
        { c with cache :=
            c.cache.filter (fun e => e.1 != k) ++ [(k, v, ts)] }) := by
      rw [LRUCache.get, hfind]
      simp [hcond]
    rw [hget]
    refine ⟨rfl, ?_⟩
    simp only [LRUCache.keys, List.map_append]
    rw [keys_filter_ne]
    rfl

/-- Witness for C7: capacity 1, two distinct inserts. -/
theorem C7_embedding_cache_lru_eviction_witness :
    ((({ maxsize := 1, ttl_seconds := 10, cache := [] } :
        LRUCache Emb).setAll [("a", [1]), ("b", [2])] 0).keys = ["b"]) := by
  have h := C7_embedding_cache_lru_eviction (α := Emb) 1 (by decide)
    [("a", [1]), ("b", [2])] (by decide) (by decide) 10 0
  exact h.1

/-! ## Analysis of the `find_similar` scan -/

/-- Characterization of `bestFold`: the running best never decreases; the
result is either the initial accumulator or an entry of the list whose
similarity reaches the threshold; and every listed entry at or above the
threshold is dominated by the final best similarity. -/
theorem bestFold_char (sim : Emb → Emb → ℚ) (q : Emb) (th : ℚ) :
    ∀ (l : List (String × Emb)) (best : Option String) (bestSim : ℚ),
      bestSim ≤ (bestFold sim q th l best bestSim).2 ∧
      (bestFold sim q th l best bestSim = (best, bestSim) ∨
        ∃ e ∈ l, bestFold sim q th l best bestSim = (some e.1, sim q e.2) ∧
          th ≤ sim q e.2) ∧
      (∀ e ∈ l, th ≤ sim q e.2 →
        sim q e.2 ≤ (bestFold sim q th l best bestSim).2) := by
  intro l
  induction l with
  | nil =>
    intro best bestSim
    exact ⟨le_refl _, Or.inl rfl, by simp⟩
  | cons e rest ih =>
    intro best bestSim
    obtain ⟨k, emb⟩ := e
    simp only [bestFold]
    by_cases hc : sim q emb > bestSim ∧ sim q emb ≥ th
    · rw [if_pos hc]
      have IH := ih (some k) (sim q emb)
      refine ⟨le_trans (le_of_lt hc.1) IH.1, ?_, ?_⟩
      · rcases IH.2.1 with h | ⟨e', he', h⟩
        · exact Or.inr ⟨(k, emb), by simp, h, hc.2⟩
        · exact Or.inr ⟨e', List.mem_cons_of_mem _ he', h⟩
      · intro e' he' hth'
        rcases List.mem_cons.mp he' with h | h
        · rw [h]
          exact IH.1
        · exact IH.2.2 e' h hth'
    · rw [if_neg hc]
      have IH := ih best bestSim
      refine ⟨IH.1, ?_, ?_⟩
      · rcases IH.2.1 with h | ⟨e', he', h⟩
        · exact Or.inl h
        · exact Or.inr ⟨e', List.mem_cons_of_mem _ he', h⟩
      · intro e' he' hth'
        rcases List.mem_cons.mp he' with h | h
        · have hgt : ¬(sim q emb > bestSim) := by
            intro hgt
            rw [h] at hth'
            exact hc ⟨hgt, hth'⟩
          rw [h]
          exact le_trans (not_lt.mp hgt) IH.1
        · exact IH.2.2 e' h hth'

/-- The scan loop, explained against the cache as it stood when the scan
started: with distinct keys, the best accumulator evolves as the pure
`bestFold` over the live entries, the expired accumulator collects exactly the
non-live entries, and the result map loses exactly the rows of entries found
past their time-to-live. -/
theorem scanEntries_spec (sim : Emb → Emb → ℚ) (q : Emb) (th ttl now : ℚ) :
    ∀ (entries : List (String × Emb)) (cache : List (String × CachedResult))
      (best : Option String) (bestSim : ℚ) (expAcc : List (String × Emb)),
      (entries.map Prod.fst).Nodup →
      scanEntries sim q th ttl now entries cache best bestSim expAcc =
        ((bestFold sim q th (entries.filter (liveEntry cache ttl now)) best
            bestSim).1,
         (bestFold sim q th (entries.filter (liveEntry cache ttl now)) best
            bestSim).2,
         expAcc ++ entries.filter (fun e => !liveEntry cache ttl now e),
         (entries.filter (deadKey cache ttl now)).foldl
            (fun m e => eraseA m e.1) cache) := by
  intro entries
  induction entries with
  | nil =>
    intro cache best bestSim expAcc _
    simp [scanEntries, bestFold]
  | cons e rest ih =>
    intro cache best bestSim expAcc hnd
    obtain ⟨k, emb⟩ := e
    simp only [List.map_cons, List.nodup_cons] at hnd
    have hne : ∀ e' ∈ rest, e'.1 ≠ k := by
      intro e' he' hh
      exact hnd.1 (hh ▸ (List.mem_map.mpr ⟨e', he', rfl⟩))
    cases hg : getA cache k with
    | none =>
      have hlive : liveEntry cache ttl now (k, emb) = false := by
        simp [liveEntry, hg]
      have hdead : deadKey cache ttl now (k, emb) = false := by
        simp [deadKey, hg]
      simp only [scanEntries, hg]
      rw [ih cache best bestSim (expAcc ++ [(k, emb)]) hnd.2]
      rw [List.filter_cons, List.filter_cons, List.filter_cons, hlive, hdead]
      simp [List.append_assoc]
    | some cached =>
      by_cases hexp : now - cached.timestamp > ttl
      · have hlive : liveEntry cache ttl now (k, emb) = false := by
          simp [liveEntry, hg, not_le.mpr hexp]
        have hdead : deadKey cache ttl now (k, emb) = true := by
          simp [deadKey, hg, hexp]
        simp only [scanEntries, hg]
        rw [if_pos hexp]
        rw [ih (eraseA cache k) best bestSim (expAcc ++ [(k, emb)]) hnd.2]
        have hlive_eq : rest.filter (liveEntry (eraseA cache k) ttl now) =
            rest.filter (liveEntry cache ttl now) := by
          apply List.filter_congr
          intro e' he'
          simp [liveEntry, getA_eraseA_ne cache k e'.1 (hne e' he')]
        have hnotlive_eq :
            rest.filter (fun e => !liveEntry (eraseA cache k) ttl now e) =
            rest.filter (fun e => !liveEntry cache ttl now e) := by
          apply List.filter_congr
          intro e' he'
          simp [liveEntry, getA_eraseA_ne cache k e'.1 (hne e' he')]
        have hdead_eq : rest.filter (deadKey (eraseA cache k) ttl now) =
            rest.filter (deadKey cache ttl now) := by
          apply List.filter_congr
          intro e' he'
          simp [deadKey, getA_eraseA_ne cache k e'.1 (hne e' he')]
        rw [hlive_eq, hnotlive_eq, hdead_eq]
        rw [List.filter_cons, List.filter_cons, List.filter_cons, hlive, hdead]
        simp [List.append_assoc]
      · have hlive : liveEntry cache ttl now (k, emb) = true := by
          simp [liveEntry, hg, not_lt.mp hexp]
        have hdead : deadKey cache ttl now (k, emb) = false := by
          simp [deadKey, hg, hexp]
        simp only [scanEntries, hg]
        rw [if_neg hexp]
        rw [List.filter_cons, List.filter_cons, List.filter_cons, hlive, hdead]
        simp only [Bool.not_true, Bool.false_eq_true, if_false, if_true]
        by_cases hc : sim q emb > bestSim ∧ sim q emb ≥ th
        · rw [if_pos hc]
          rw [ih cache (some k) (sim q emb) expAcc hnd.2]
          simp only [bestFold]
          rw [if_pos hc]
        · rw [if_neg hc]
          rw [ih cache best bestSim expAcc hnd.2]
          simp only [bestFold]
          rw [if_neg hc]

theorem getA_eraseA_self {β : Type} (m : List (String × β)) (k : String) :
    getA (eraseA m k) k = none := by
  apply getA_none_of_not_mem_keys
  intro hmem
  obtain ⟨e, he, hek⟩ := List.mem_map.mp hmem
  have hf := List.of_mem_filter he
  rw [hek] at hf
  simp at hf

theorem getA_eraseA_none {β : Type} (m : List (String × β)) (k k' : String)
    (h : getA m k = none) : getA (eraseA m k') k = none := by
  by_cases hk : k = k'
  · subst hk
    exact getA_eraseA_self m k
  · rw [getA_eraseA_ne m k' k hk, h]

theorem getA_eraseFold_not_mem {β : Type} (ds : List (String × Emb)) :
    ∀ (cache : List (String × β)) (k : String), k ∉ ds.map Prod.fst →
    getA (ds.foldl (fun m e => eraseA m e.1) cache) k = getA cache k := by
  induction ds with
  | nil => intro cache k _; rfl
  | cons d ds ih =>
    intro cache k hk
    simp only [List.map_cons, List.mem_cons] at hk
    push_neg at hk
    rw [List.foldl_cons, ih (eraseA cache d.1) k hk.2,
      getA_eraseA_ne cache d.1 k hk.1]

theorem getA_eraseFold_mem {β : Type} (ds : List (String × Emb)) :
    ∀ (cache : List (String × β)) (k : String), k ∈ ds.map Prod.fst →
    getA (ds.foldl (fun m e => eraseA m e.1) cache) k = none := by
  have hkeep : ∀ (ds' : List (String × Emb)) (cache : List (String × β))
      (k : String), getA cache k = none →
      getA (ds'.foldl (fun m e => eraseA m e.1) cache) k = none := by
    intro ds'
    induction ds' with
    | nil => intro cache k h; exact h
    | cons d ds' ih =>
      intro cache k h
      rw [List.foldl_cons]
      exact ih (eraseA cache d.1) k (getA_eraseA_none cache k d.1 h)
  induction ds with
  | nil => intro cache k hk; cases hk
  | cons d ds ih =>
    intro cache k hk
    simp only [List.map_cons, List.mem_cons] at hk
    rw [List.foldl_cons]
    rcases hk with hk | hk
    · exact hkeep ds (eraseA cache d.1) k
        (hk ▸ getA_eraseA_self cache d.1)
    · exact ih (eraseA cache d.1) k hk

theorem eraseFold_filter_not (l : List (String × Emb))
    (p : String × Emb → Bool) (hnd : l.Nodup) :
    (l.filter (fun e => !p e)).foldl (fun acc x => acc.erase x) l =
      l.filter p := by
  have hdiff : (l.filter (fun e => !p e)).foldl
      (fun acc x => acc.erase x) l = l.diff (l.filter (fun e => !p e)) := by
    rw [List.diff_eq_foldl]
  rw [hdiff, List.Nodup.diff_eq_filter hnd]
  apply List.filter_congr
  intro e he
  cases hp : p e with
  | true =>
    simp [List.mem_filter, hp]
  | false =>
    simp [List.mem_filter, hp, he]

/-- Full specification of `SemanticCache.find_similar` for a dealership whose
entry list has distinct keys, against a positive similarity threshold: the
surviving entry list is exactly the live (unexpired) part; the rows of entries
found past their time-to-live are deleted; when no live entry reaches the
threshold the result is `none`; and when some live entry reaches the threshold
the result is a live entry of maximal similarity, returned with its hit
counter incremented both in the returned value and in the stored row. -/
theorem find_similar_spec (sim : Emb → Emb → ℚ) (c : SemanticCache) (q : Emb)
    (dealer : ℤ) (now : ℚ) (entries : List (String × Emb))
    (hentries : getA c.embeddings (toString dealer) = some entries)
    (hnd : (entries.map Prod.fst).Nodup)
    (hth : 0 < c.similarity_threshold) :
    (getA (c.find_similar sim q dealer now).2.embeddings (toString dealer) =
      some (entries.filter (liveEntry c.cache c.ttl_seconds now))) ∧
    (∀ e ∈ entries, deadKey c.cache c.ttl_seconds now e = true →
      getA (c.find_similar sim q dealer now).2.cache e.1 = none) ∧
    ((∀ e ∈ entries.filter (liveEntry c.cache c.ttl_seconds now),
        sim q e.2 < c.similarity_threshold) →
      (c.find_similar sim q dealer now).1 = none) ∧
    ((∃ e ∈ entries.filter (liveEntry c.cache c.ttl_seconds now),
        c.similarity_threshold ≤ sim q e.2) →
      ∃ e ∈ entries.filter (liveEntry c.cache c.ttl_seconds now),
        ∃ cr : CachedResult,
        getA c.cache e.1 = some cr ∧
        (c.find_similar sim q dealer now).1 =
          some { cr with hit_count := cr.hit_count + 1 } ∧
        c.similarity_threshold ≤ sim q e.2 ∧
        (∀ e' ∈ entries.filter (liveEntry c.cache c.ttl_seconds now),
          sim q e'.2 ≤ sim q e.2) ∧
        getA (c.find_similar sim q dealer now).2.cache e.1 =
          some { cr with hit_count := cr.hit_count + 1 }) := by
  have hndE : entries.Nodup := List.Nodup.of_map _ hnd
  have hscan := scanEntries_spec sim q c.similarity_threshold c.ttl_seconds
    now entries c.cache none 0 [] hnd
  have hchar := bestFold_char sim q c.similarity_threshold
    (entries.filter (liveEntry c.cache c.ttl_seconds now)) none 0
  have hentries1 : (entries.filter
        (fun e => !liveEntry c.cache c.ttl_seconds now e)).foldl
      (fun l item => l.erase item) entries =
      entries.filter (liveEntry c.cache c.ttl_seconds now) :=
    eraseFold_filter_not entries (liveEntry c.cache c.ttl_seconds now) hndE
  have hkeyinj : ∀ d ∈ entries, ∀ e ∈ entries, d.1 = e.1 → d = e :=
    fun d hd e he h => List.inj_on_of_nodup_map hnd hd he h
  have hcontr : ∀ x, liveEntry c.cache c.ttl_seconds now x = true →
      deadKey c.cache c.ttl_seconds now x = true → False := by
    intro x h2 h1
    unfold liveEntry at h2
    unfold deadKey at h1
    cases hg : getA c.cache x.1 with
    | none =>
      rw [hg] at h2
      simp at h2
    | some cr =>
      rw [hg] at h1 h2
      simp at h1 h2
      linarith
  have hlivekey : ∀ e ∈ entries.filter (liveEntry c.cache c.ttl_seconds now),
      getA ((entries.filter (deadKey c.cache c.ttl_seconds now)).foldl
        (fun m e => eraseA m e.1) c.cache) e.1 = getA c.cache e.1 := by
    intro e he
    apply getA_eraseFold_not_mem
    intro hmem
    obtain ⟨d, hd, hdk⟩ := List.mem_map.mp hmem
    have hde : d = e := hkeyinj d (List.mem_of_mem_filter hd) e
      (List.mem_of_mem_filter he) hdk
    subst hde
    exact hcontr d (List.of_mem_filter he) (List.of_mem_filter hd)
  have hfs : c.find_similar sim q dealer now =
      (match (bestFold sim q c.similarity_threshold
          (entries.filter (liveEntry c.cache c.ttl_seconds now)) none 0).1 with
       | none =>
         (none,
          { c with
            cache := (entries.filter
              (deadKey c.cache c.ttl_seconds now)).foldl
              (fun m e => eraseA m e.1) c.cache,
            embeddings := setA c.embeddings (toString dealer)
              (entries.filter (liveEntry c.cache c.ttl_seconds now)) })
       | some k =>
         match getA ((entries.filter
             (deadKey c.cache c.ttl_seconds now)).foldl
             (fun m e => eraseA m e.1) c.cache) k with
         | none =>
           (none,
            { c with
              cache := (entries.filter
                (deadKey c.cache c.ttl_seconds now)).foldl
                (fun m e => eraseA m e.1) c.cache,
              embeddings := setA c.embeddings (toString dealer)
                (entries.filter (liveEntry c.cache c.ttl_seconds now)) })
         | some cached =>
           (some { cached with hit_count := cached.hit_count + 1 },
            { c with
              cache := setA ((entries.filter
                (deadKey c.cache c.ttl_seconds now)).foldl
                (fun m e => eraseA m e.1) c.cache) k
                { cached with hit_count := cached.hit_count + 1 },
              embeddings := setA c.embeddings (toString dealer)
                (entries.filter
                  (liveEntry c.cache c.ttl_seconds now)) })) := by
    rw [SemanticCache.find_similar]
    simp only [hentries, hscan, List.nil_append, hentries1]
  refine ⟨?_, ?_, ?_, ?_⟩
  · -- surviving per-dealership list
    rw [hfs]
    split
    · exact getA_setA_self _ _ _
    · split
      · exact getA_setA_self _ _ _
      · exact getA_setA_self _ _ _
  · -- rows of expired entries are deleted
    intro e he hdead
    have hmemdead : e.1 ∈ (entries.filter
        (deadKey c.cache c.ttl_seconds now)).map Prod.fst :=
      List.mem_map.mpr ⟨e, List.mem_filter.mpr ⟨he, hdead⟩, rfl⟩
    have hnone : getA ((entries.filter
        (deadKey c.cache c.ttl_seconds now)).foldl
        (fun m e => eraseA m e.1) c.cache) e.1 = none :=
      getA_eraseFold_mem _ _ _ hmemdead
    rw [hfs]
    split
    · exact hnone
    · rename_i k hb
      split
      · exact hnone
      · rename_i cached hk
        -- the matched key belongs to a live entry, so it differs from e.1
        rcases hchar.2.1 with hzero | ⟨eb, heb, hbf, hth'⟩
        · rw [hzero] at hb
          simp at hb
        · have hkeb : k = eb.1 := by
            rw [hbf] at hb
            simp at hb
            exact hb.symm
          have hneq : e.1 ≠ k := by
            rw [hkeb]
            intro hh
            have hde : e = eb := hkeyinj e he eb
              (List.mem_of_mem_filter heb) hh
            exact hcontr e (hde ▸ List.of_mem_filter heb) hdead
          rw [getA_setA_ne _ _ _ _ hneq]
          exact hnone
  · -- all live entries below the threshold: no match
    intro hall
    rw [hfs]
    split
    · rfl
    · rename_i k hb
      rcases hchar.2.1 with hzero | ⟨eb, heb, hbf, hth'⟩
      · rw [hzero] at hb
        simp at hb
      · exact absurd hth' (not_le.mpr (hall eb heb))

  · -- some live entry reaches the threshold: maximal live match returned
    intro hex
    obtain ⟨e0, he0, hth0⟩ := hex
    rcases hchar.2.1 with hzero | ⟨eb, heb, hbf, hth'⟩
    · exfalso
      have hle := hchar.2.2 e0 he0 hth0
      rw [hzero] at hle
      simp only at hle
      exact absurd (le_trans hth0 hle) (not_le.mpr hth)
    · -- the best entry is live, so its row survives
      have hrow : getA ((entries.filter
          (deadKey c.cache c.ttl_seconds now)).foldl
          (fun m e => eraseA m e.1) c.cache) eb.1 = getA c.cache eb.1 :=
        hlivekey eb heb
      have hlv : liveEntry c.cache c.ttl_seconds now eb = true :=
        List.of_mem_filter heb
      cases hg : getA c.cache eb.1 with
      | none =>
        exfalso
        unfold liveEntry at hlv
        rw [hg] at hlv
        simp at hlv
      | some cr =>
        have hrowcr : getA ((entries.filter
            (deadKey c.cache c.ttl_seconds now)).foldl
            (fun m e => eraseA m e.1) c.cache) eb.1 = some cr :=
          hrow.trans hg
        refine ⟨eb, heb, cr, hg, ?_, hth', ?_, ?_⟩
        · rw [hfs]
          simp only [hbf, hrowcr]
        · intro e' he'
          by_cases hth'' : c.similarity_threshold ≤ sim q e'.2
          · have := hchar.2.2 e' he' hth''
            rw [hbf] at this
            exact this
          · exact le_trans (le_of_lt (not_le.mp hth'')) hth'
        · rw [hfs]
          simp only [hbf, hrowcr]
          exact getA_setA_self _ _ _

/-! ## C8: semantic-cache match semantics -/

/-- C8: scoped to a dealership whose stored entry list has distinct keys and
with a positive similarity threshold, `find_similar` (1) returns, whenever
some unexpired entry reaches the threshold, an unexpired entry of maximal
similarity with its hit counter incremented in the returned value and in the
store; (2) returns `none` when no unexpired entry reaches the threshold;
(3) removes from the per-dealership list exactly the entries found expired
during the scan; and (4) deletes the result rows of expired entries. -/
theorem C8_semantic_cache_find_similar (sim : Emb → Emb → ℚ)
    (c : SemanticCache) (q : Emb) (dealer : ℤ) (now : ℚ)
    (entries : List (String × Emb))
    (hentries : getA c.embeddings (toString dealer) = some entries)
    (hnd : (entries.map Prod.fst).Nodup)
    (hth : 0 < c.similarity_threshold) :
    ((∃ e ∈ entries.filter (liveEntry c.cache c.ttl_seconds now),
        c.similarity_threshold ≤ sim q e.2) →
      ∃ e ∈ entries.filter (liveEntry c.cache c.ttl_seconds now),
        ∃ cr : CachedResult,
        getA c.cache e.1 = some cr ∧
        (c.find_similar sim q dealer now).1 =
          some { cr with hit_count := cr.hit_count + 1 } ∧
        c.similarity_threshold ≤ sim q e.2 ∧
        (∀ e' ∈ entries.filter (liveEntry c.cache c.ttl_seconds now),
          sim q e'.2 ≤ sim q e.2) ∧
        getA (c.find_similar sim q dealer now).2.cache e.1 =
          some { cr with hit_count := cr.hit_count + 1 }) ∧
    ((∀ e ∈ entries.filter (liveEntry c.cache c.ttl_seconds now),
        sim q e.2 < c.similarity_threshold) →
      (c.find_similar sim q dealer now).1 = none) ∧
    (getA (c.find_similar sim q dealer now).2.embeddings (toString dealer) =
      some (entries.filter (liveEntry c.cache c.ttl_seconds now))) ∧
    (∀ e ∈ entries, deadKey c.cache c.ttl_seconds now e = true →
      getA (c.find_similar sim q dealer now).2.cache e.1 = none) := by
  have h := find_similar_spec sim c q dealer now entries hentries hnd hth
  exact ⟨h.2.2.2, h.2.2.1, h.1, h.2.1⟩

/-- Witness for C8: one fresh entry of similarity 1 against threshold 0.92. -/
theorem C8_semantic_cache_find_similar_witness :
    getA (semW.find_similar dotSim [1] 1 0).2.embeddings (toString (1 : ℤ)) =
      some ([("1:q", ([1] : Emb))].filter
        (liveEntry semW.cache semW.ttl_seconds 0)) :=
  (C8_semantic_cache_find_similar dotSim semW [1] 1 0 [("1:q", [1])]
    (by rfl) (by simp) (by norm_num [semW])).2.2.1

/-! ## C4: time-to-live expiry -/

/-- An entry cannot be both within and past its time-to-live. -/
theorem liveEntry_deadKey_false (cache : List (String × CachedResult))
    (ttl now : ℚ) (x : String × Emb)
    (h2 : liveEntry cache ttl now x = true)
    (h1 : deadKey cache ttl now x = true) : False := by
  unfold liveEntry at h2
  unfold deadKey at h1
  cases hg : getA cache x.1 with
  | none =>
    rw [hg] at h2
    simp at h2
  | some cr =>
    rw [hg] at h1 h2
    simp at h1 h2
    linarith

/-- C4 counterexample: a session context last accessed at time 0 is looked up
at time 4000 — more than the 3600-second inactivity window later — yet it is
returned (with its last-access time refreshed), not reported absent, refuting
time-to-live expiry on lookup for the session-context cache. -/
theorem C4_ttl_expiry_counterexample :
    (4000 : ℚ) - ctxW.last_accessed > 3600 ∧
    (rcW.get_session_context "s" 4000).1 =
      some { ctxW with last_accessed := 4000 } := by
  constructor
  · norm_num [ctxW]
  · rfl

/-- C4 (amended): time-to-live expiry holds on lookup for the embedding cache
— an expired entry is reported absent, counted as a miss, and removed — and
for the semantic cache — an expired entry is dropped from the per-dealership
list, its result row is deleted, and any returned match is an unexpired entry;
session contexts, however, are not expired on lookup: `get_session_context`
returns even an arbitrarily idle context (refreshing its last-access time);
idle sessions are removed only by the sweep inside `set_session_context`. -/
theorem C4_ttl_expiry_amended :
    (∀ (rc : RAGCache) (q : String) (v : Emb) (ts now : ℚ),
      rc.embedding_cache.keys.Nodup → (q, v, ts) ∈ rc.embedding_cache.cache →
      now - ts > rc.embedding_cache.ttl_seconds →
      (rc.get_cached_embedding q now).1 = none ∧
      (rc.get_cached_embedding q now).2.embedding_misses =
        rc.embedding_misses + 1 ∧
      (rc.get_cached_embedding q now).2.embedding_hits =
        rc.embedding_hits ∧
      (rc.get_cached_embedding q now).2.embedding_cache.cache =
        rc.embedding_cache.cache.filter (fun e => e.1 != q)) ∧
    (∀ (sim : Emb → Emb → ℚ) (c : SemanticCache) (q : Emb) (dealer : ℤ)
      (now : ℚ) (entries : List (String × Emb)),
      getA c.embeddings (toString dealer) = some entries →
      (entries.map Prod.fst).Nodup → 0 < c.similarity_threshold →
      ∀ e ∈ entries, deadKey c.cache c.ttl_seconds now e = true →
        getA (c.find_similar sim q dealer now).2.cache e.1 = none ∧
        e ∉ entries.filter (liveEntry c.cache c.ttl_seconds now) ∧
        getA (c.find_similar sim q dealer now).2.embeddings
          (toString dealer) =
          some (entries.filter (liveEntry c.cache c.ttl_seconds now)) ∧
        (∀ r, (c.find_similar sim q dealer now).1 = some r →
          ∃ e' ∈ entries.filter (liveEntry c.cache c.ttl_seconds now),
            ∃ cr : CachedResult, getA c.cache e'.1 = some cr ∧
              r = { cr with hit_count := cr.hit_count + 1 })) ∧
    (∀ (rc : RAGCache) (sid : String) (ctx : SessionContext) (now : ℚ),
      getA rc.session_contexts sid = some ctx →
      (rc.get_session_context sid now).1 =
        some { ctx with last_accessed := now }) := by
  refine ⟨?_, ?_, ?_⟩
  · intro rc q v ts now hnd hmem hexp
    have hfind : rc.embedding_cache.cache.find? (fun e => e.1 == q) =
        some (q, v, ts) :=
      find?_eq_of_mem_nodup (by simpa [LRUCache.keys] using hnd) hmem
    have hget : rc.embedding_cache.get q now = (none,
        { rc.embedding_cache with
          cache := rc.embedding_cache.cache.filter (fun e => e.1 != q) }) := by
      rw [LRUCache.get, hfind]
      simp [hexp]
    rw [RAGCache.get_cached_embedding]
    simp [hget, optEmbTruthy]
  · intro sim c q dealer now entries hentries hnd hth e he hdead
    have h := find_similar_spec sim c q dealer now entries hentries hnd hth
    refine ⟨h.2.1 e he hdead, ?_, h.1, ?_⟩
    · intro hmem'
      exact liveEntry_deadKey_false c.cache c.ttl_seconds now e
        (List.of_mem_filter hmem') hdead
    · intro r hr
      by_cases hall : ∀ e' ∈ entries.filter
          (liveEntry c.cache c.ttl_seconds now),
          sim q e'.2 < c.similarity_threshold
      · rw [h.2.2.1 hall] at hr
        cases hr
      · push_neg at hall
        obtain ⟨e0, he0, hth0⟩ := hall
        obtain ⟨e', he', cr, hg, hres, _, _, _⟩ :=
          h.2.2.2 ⟨e0, he0, hth0⟩
        rw [hres] at hr
        cases hr
        exact ⟨e', he', cr, hg, rfl⟩
  · intro rc sid ctx now hmem
    rw [RAGCache.get_session_context]
    simp only [hmem]

/-- Witness for the amended C4 at the concrete idle session of the
counterexample. -/
theorem C4_ttl_expiry_amended_witness :
    (rcW.get_session_context "s" 4000).1 =
      some { ctxW with last_accessed := 4000 } :=
  C4_ttl_expiry_amended.2.2 rcW "s" ctxW 4000 (by rfl)

/-! ## C2: rollback scope of a StoreError during ingestion -/

/-- C2 counterexample: uploading two documents where the metadata store fails
while processing the second rolls back the Document and Chunk rows of the
first document as well — after the call the metadata store is exactly as
before the call (the first document's rows are gone), while the first
document's vector remains in the index. -/
theorem C2_per_document_rollback_counterexample :
    (RAGService.upload_documents ingestEnvW ["aaa", "bbb"] 1 "t" none dbEmpty
      ixEmpty).1 = .error .storeError ∧
    (RAGService.upload_documents ingestEnvW ["aaa", "bbb"] 1 "t" none dbEmpty
      ixEmpty).2.1.documents = [] ∧
    (RAGService.upload_documents ingestEnvW ["aaa", "bbb"] 1 "t" none dbEmpty
      ixEmpty).2.1.chunks = [] ∧
    (RAGService.upload_documents ingestEnvW ["aaa", "bbb"] 1 "t" none dbEmpty
      ixEmpty).2.2.vectors.length = 1 :=
  ⟨rfl, rfl, rfl, rfl⟩

/-- C2 (amended): a `StoreError` during `upload_documents` rolls back the
metadata writes of every document of that call — the metadata store returned
on error is exactly the pre-call store (documents of previous calls are
untouched only because they were already committed); index upserts already
performed are not rolled back. -/
theorem C2_storeerror_rolls_back_whole_call (env : IngestEnv)
    (texts : List String) (dealership_id : ℤ) (topic : String)
    (filenames : Option (List String)) (db : DBState) (ix : VectorIndex)
    (e : StoreErr)
    (h : (RAGService.upload_documents env texts dealership_id topic filenames
      db ix).1 = .error e) :
    (RAGService.upload_documents env texts dealership_id topic filenames db
      ix).2.1 = db := by
  rw [RAGService.upload_documents] at h ⊢
  rcases huL : uploadLoop env dealership_id topic filenames
    (namespaceOf dealership_id) texts.enum db ix 0 with ⟨r, ix1⟩
  rw [huL] at h
  cases r with
  | ok p =>
    obtain ⟨db1, total⟩ := p
    exact Except.noConfusion h
  | error e' => rfl

/-- Witness for the amended C2 at the concrete failing batch. -/
theorem C2_storeerror_rolls_back_whole_call_witness :
    (RAGService.upload_documents ingestEnvW ["aaa", "bbb"] 1 "t" none dbEmpty
      ixEmpty).2.1 = dbEmpty :=
  C2_storeerror_rolls_back_whole_call ingestEnvW ["aaa", "bbb"] 1 "t" none
    dbEmpty ixEmpty .storeError (by rfl)

/-! ## C6: idempotent ingestion -/

theorem findExistingDoc_mono (db : DBState) (doc : DocumentRow)
    (chs : List ChunkRow) (nid : ℤ) (dealer : ℤ) (f hsh : String)
    (h : findExistingDoc db dealer f hsh = true) :
    findExistingDoc
      { documents := db.documents ++ [doc], chunks := chs, nextDocId := nid }
      dealer f hsh = true := by
  unfold findExistingDoc at h ⊢
  simp only [List.any_append]
  simp [h]

theorem findExistingDoc_self (db : DBState) (dealer : ℤ) (f hsh : String)
    (topic : String) (cnt : ℕ) (did : ℤ) (chs : List ChunkRow) (nid : ℤ) :
    findExistingDoc
      { documents := db.documents ++
          [{ id := did, dealership_id := dealer, filename := f,
             topic := topic, content_hash := hsh, chunk_count := cnt }],
        chunks := chs, nextDocId := nid } dealer f hsh = true := by
  unfold findExistingDoc
  simp

theorem uploadLoop_docs_mono (env : IngestEnv) (dealer : ℤ) (topic : String)
    (filenames : Option (List String)) (nsp : String) :
    ∀ (l : List (ℕ × String)) (db : DBState) (ix : VectorIndex) (total : ℕ)
      (db' : DBState) (total' : ℕ) (ix' : VectorIndex),
      uploadLoop env dealer topic filenames nsp l db ix total =
        (.ok (db', total'), ix') →
      ∀ f hsh, findExistingDoc db dealer f hsh = true →
        findExistingDoc db' dealer f hsh = true := by
  intro l
  induction l with
  | nil =>
    intro db ix total db' total' ix' heq f hsh hfind
    rw [uploadLoop] at heq
    cases heq
    exact hfind
  | cons p rest ih =>
    intro db ix total db' total' ix' heq f hsh hfind
    obtain ⟨i, text⟩ := p
    simp only [uploadLoop] at heq
    by_cases h1 : findExistingDoc db dealer (fileNameAt filenames i)
        (contentHash text) = true
    · rw [if_pos h1] at heq
      exact ih db ix total db' total' ix' heq f hsh hfind
    · rw [if_neg h1] at heq
      by_cases h2 : (env.split text).isEmpty = true
      · rw [if_pos h2] at heq
        exact ih db ix total db' total' ix' heq f hsh hfind
      · rw [if_neg h2] at heq
        by_cases h3 : env.failAt = some i
        · rw [if_pos h3] at heq
          cases heq
        · rw [if_neg h3] at heq
          refine ih _ _ _ db' total' ix' heq f hsh ?_
          exact findExistingDoc_mono db _ _ _ dealer f hsh hfind

theorem uploadLoop_creates_docs (env : IngestEnv) (dealer : ℤ)
    (topic : String) (filenames : Option (List String)) (nsp : String) :
    ∀ (l : List (ℕ × String)) (db : DBState) (ix : VectorIndex) (total : ℕ)
      (db' : DBState) (total' : ℕ) (ix' : VectorIndex),
      uploadLoop env dealer topic filenames nsp l db ix total =
        (.ok (db', total'), ix') →
      ∀ p ∈ l, env.split p.2 = [] ∨
        findExistingDoc db' dealer (fileNameAt filenames p.1)
          (contentHash p.2) = true := by
  intro l
  induction l with
  | nil =>
    intro db ix total db' total' ix' _ p hp
    cases hp
  | cons hd rest ih =>
    intro db ix total db' total' ix' heq p hp
    obtain ⟨i, text⟩ := hd
    simp only [uploadLoop] at heq
    by_cases h1 : findExistingDoc db dealer (fileNameAt filenames i)
        (contentHash text) = true
    · rw [if_pos h1] at heq
      rcases List.mem_cons.mp hp with hph | hph
      · subst hph
        exact Or.inr (uploadLoop_docs_mono env dealer topic filenames nsp
          rest db ix total db' total' ix' heq _ _ h1)
      · exact ih db ix total db' total' ix' heq p hph
    · rw [if_neg h1] at heq
      by_cases h2 : (env.split text).isEmpty = true
      · rw [if_pos h2] at heq
        rcases List.mem_cons.mp hp with hph | hph
        · subst hph
          exact Or.inl (List.isEmpty_iff.mp h2)
        · exact ih db ix total db' total' ix' heq p hph
      · rw [if_neg h2] at heq
        by_cases h3 : env.failAt = some i
        · rw [if_pos h3] at heq
          cases heq
        · rw [if_neg h3] at heq
          rcases List.mem_cons.mp hp with hph | hph
          · subst hph
            refine Or.inr (uploadLoop_docs_mono env dealer topic filenames nsp
              rest _ _ _ db' total' ix' heq _ _ ?_)
            exact findExistingDoc_self db dealer _ _ topic _ _ _ _
          · exact ih _ _ _ db' total' ix' heq p hph

theorem uploadLoop_skips (env : IngestEnv) (dealer : ℤ) (topic : String)
    (filenames : Option (List String)) (nsp : String) :
    ∀ (l : List (ℕ × String)) (db : DBState) (ix : VectorIndex) (total : ℕ),
      (∀ p ∈ l, env.split p.2 = [] ∨
        findExistingDoc db dealer (fileNameAt filenames p.1)
          (contentHash p.2) = true) →
      uploadLoop env dealer topic filenames nsp l db ix total =
        (.ok (db, total), ix) := by
  intro l
  induction l with
  | nil =>
    intro db ix total _
    rfl
  | cons hd rest ih =>
    intro db ix total hsk
    obtain ⟨i, text⟩ := hd
    simp only [uploadLoop]
    by_cases h1 : findExistingDoc db dealer (fileNameAt filenames i)
        (contentHash text) = true
    · rw [if_pos h1]
      exact ih db ix total (fun p hp => hsk p (List.mem_cons_of_mem _ hp))
    · rw [if_neg h1]
      rcases hsk (i, text) (by simp) with hempty | hdup
      · have h2 : (env.split text).isEmpty = true := by
          rw [hempty]
          rfl
        rw [if_pos h2]
        exact ih db ix total (fun p hp => hsk p (List.mem_cons_of_mem _ hp))
      · exact absurd hdup h1

/-- C6: re-uploading the same texts (same filenames, same contents) for the
same dealership after a successful upload is a no-op: every document is
skipped through the (dealership, filename, content-hash) lookup, the metadata
store and the similarity index are returned unchanged — so every document's
chunk count and the index vector count are unchanged — and the second call
reports 0 chunks written. -/
theorem C6_idempotent_ingestion (env : IngestEnv) (texts : List String)
    (dealership_id : ℤ) (topic : String) (filenames : Option (List String))
    (db : DBState) (ix : VectorIndex) (n1 : ℕ) (db1 : DBState)
    (ix1 : VectorIndex)
    (h1 : RAGService.upload_documents env texts dealership_id topic filenames
      db ix = (.ok n1, db1, ix1)) :
    RAGService.upload_documents env texts dealership_id topic filenames db1
      ix1 = (.ok 0, db1, ix1) := by
  rw [RAGService.upload_documents] at h1 ⊢
  rcases huL : uploadLoop env dealership_id topic filenames
    (namespaceOf dealership_id) texts.enum db ix 0 with ⟨r, ixr⟩
  rw [huL] at h1
  cases r with
  | error e => exact Except.noConfusion (congrArg Prod.fst h1)
  | ok pr =>
    obtain ⟨dbo, t⟩ := pr
    have hdb : dbo = db1 := congrArg (fun x => x.2.1) h1
    have hix : ixr = ix1 := congrArg (fun x => x.2.2) h1
    rw [← hdb, ← hix]
    have hpres := uploadLoop_creates_docs env dealership_id topic filenames
      (namespaceOf dealership_id) texts.enum db ix 0 dbo t ixr huL
    have hskip := uploadLoop_skips env dealership_id topic filenames
      (namespaceOf dealership_id) texts.enum dbo ixr 0 hpres
    rw [hskip]

/-- Witness for C6: re-uploading one document is a no-op reporting 0. -/
theorem C6_idempotent_ingestion_witness :
    RAGService.upload_documents ingestEnvOk ["aaa"] 1 "t" none db1W ix1W =
      (.ok 0, db1W, ix1W) :=
  C6_idempotent_ingestion ingestEnvOk ["aaa"] 1 "t" none dbEmpty ixEmpty 1
    db1W ix1W (by rfl)

/-! ## C1: tenant isolation across the session stage -/

/-- C1 (code evaluated at the failing input): a query issued under dealership
1 with a session id whose stored context belongs to dealership 2 returns
dealership 2's chunk from the session stage — `search_session_context` never
compares the stored `dealership_id` with the caller's, although it stores that
field. -/
theorem C1_tenant_isolation_violation :
    ctxB.dealership_id = 2 ∧
    (RAGService.query envQ oneSim rcB "q" 1 none (some 5) true (some "s")
      0).results = [chunkB] ∧
    (RAGService.query envQ oneSim rcB "q" 1 none (some 5) true (some "s")
      0).source = .session := by
  refine ⟨rfl, ?_, ?_⟩ <;> rfl

/-- The session-match threshold is the 0.7 of the source. -/
theorem sessionThreshold_eq : sessionThreshold = 7/10 := by
  rw [sessionThreshold]
  rw [Rat.mk'_eq_divInt]
  norm_num [Rat.divInt_eq_div]

/-! ## C3: topic filtering and the caches -/

/-- C3 counterexample: pre-warm session "s" (the warm-up queries run without
any topic filter), then retrieve with `topicFilter = ["x"]` and that session
id — the call returns exactly the pre-warmed chunks, a result set populated
by unfiltered queries, because the session stage runs before the topic filter
is ever consulted. -/
theorem C3_topic_filter_counterexample :
    (RAGService.prewarm_session envP RAGCache.init "s" 1 3 0).1.chunks_prewarmed
      = 1 ∧
    getA (RAGService.prewarm_session envP RAGCache.init "s" 1 3
        0).2.session_contexts "s" =
      some { dealership_id := 1, chunks := [matchToChunk mW],
             embeddings := [[1]], created_at := 0, last_accessed := 0 } ∧
    (RAGService.query envQ oneSim
        (RAGService.prewarm_session envP RAGCache.init "s" 1 3 0).2
        "q" 1 (some ["x"]) (some 5) true (some "s") 0).results =
      [matchToChunk mW] := by
  refine ⟨?_, ?_, ?_⟩ <;> rfl

theorem get_cached_embedding_semantic (rc : RAGCache) (q : String) (now : ℚ) :
    (rc.get_cached_embedding q now).2.semantic_cache = rc.semantic_cache ∧
    (rc.get_cached_embedding q now).2.semantic_hits = rc.semantic_hits ∧
    (rc.get_cached_embedding q now).2.semantic_misses = rc.semantic_misses := by
  rw [RAGCache.get_cached_embedding]
  split
  split <;> exact ⟨rfl, rfl, rfl⟩

theorem get_session_context_semantic (rc : RAGCache) (sid : String)
    (now : ℚ) :
    (rc.get_session_context sid now).2.semantic_cache = rc.semantic_cache ∧
    (rc.get_session_context sid now).2.semantic_hits = rc.semantic_hits ∧
    (rc.get_session_context sid now).2.semantic_misses =
      rc.semantic_misses := by
  rw [RAGCache.get_session_context]
  split <;> exact ⟨rfl, rfl, rfl⟩

theorem search_session_context_semantic (sim : Emb → Emb → ℚ) (rc : RAGCache)
    (sid : String) (qe : Emb) (k : ℕ) (th now : ℚ) :
    (rc.search_session_context sim sid qe k th now).2.semantic_cache =
      rc.semantic_cache ∧
    (rc.search_session_context sim sid qe k th now).2.semantic_hits =
      rc.semantic_hits ∧
    (rc.search_session_context sim sid qe k th now).2.semantic_misses =
      rc.semantic_misses := by
  have h := get_session_context_semantic rc sid now
  rw [RAGCache.search_session_context]
  rcases hget : rc.get_session_context sid now with ⟨ctxOpt, rc1⟩
  rw [hget] at h
  cases ctxOpt with
  | none => exact h
  | some ctx =>
    by_cases hc : ctx.chunks.isEmpty
    · simp only [hc, if_true]
      exact h
    · simp only [hc, Bool.false_eq_true, if_false]
      exact h

/-- With a topic filter, the semantic-cache stage is bypassed and the call
falls through to the index; the cache state is returned untouched. -/
theorem querySemanticStage_topic_filter (env : QueryEnv)
    (sim : Emb → Emb → ℚ) (rc : RAGCache) (q : String) (qe : Emb)
    (dealer : ℤ) (f : List String) (k : ℕ) (uc : Bool) (now : ℚ) :
    querySemanticStage env sim rc q qe dealer (some f) k uc now =
      { results := (env.indexQuery qe k dealer (some f)).map matchToChunk,
        source := .index, cache := rc, indexCalls := 1 } := by
  rw [querySemanticStage]
  rw [if_neg (by simp)]
  rw [queryIndexStage]
  rw [if_neg (by simp)]

/-- C3 (amended): when a topic filter is supplied, `query` never answers from
the semantic cache, and neither reads nor writes it: the returned source is
the session stage or the index, the semantic cache state is unchanged, and
the semantic hit/miss counters are unchanged.  (The session stage, however,
still runs before the filter is consulted; the counterexample shows it can
return chunks pre-warmed without the filter.) -/
theorem C3_topic_filter_skips_semantic_cache (env : QueryEnv)
    (sim : Emb → Emb → ℚ) (rc : RAGCache) (q : String) (dealer : ℤ)
    (f : List String) (k0 : Option ℕ) (sid : Option String) (now : ℚ) :
    (RAGService.query env sim rc q dealer (some f) k0 true sid now).source ≠
      .semanticCache ∧
    (RAGService.query env sim rc q dealer (some f) k0 true sid
      now).cache.semantic_cache = rc.semantic_cache ∧
    (RAGService.query env sim rc q dealer (some f) k0 true sid
      now).cache.semantic_hits = rc.semantic_hits ∧
    (RAGService.query env sim rc q dealer (some f) k0 true sid
      now).cache.semantic_misses = rc.semantic_misses := by
  rw [RAGService.query.eq_def]
  simp only [if_true]
  generalize (match k0 with
    | some n => if n = 0 then RAG_TOP_K else n
    | none => RAG_TOP_K : ℕ) = kk
  rcases hge : rc.get_cached_embedding q now with ⟨embOpt, rc1⟩
  have h1 := get_cached_embedding_semantic rc q now
  rw [hge] at h1
  simp only [hge]
  have hstep : ∀ rc' : RAGCache, rc'.semantic_cache = rc.semantic_cache →
      rc'.semantic_hits = rc.semantic_hits →
      rc'.semantic_misses = rc.semantic_misses →
      ∀ qe : Emb,
      (querySemanticStage env sim rc' q qe dealer (some f) kk true
        now).source ≠ .semanticCache ∧
      (querySemanticStage env sim rc' q qe dealer (some f) kk true
        now).cache.semantic_cache = rc.semantic_cache ∧
      (querySemanticStage env sim rc' q qe dealer (some f) kk true
        now).cache.semantic_hits = rc.semantic_hits ∧
      (querySemanticStage env sim rc' q qe dealer (some f) kk true
        now).cache.semantic_misses = rc.semantic_misses := by
    intro rc' hsc hsh hsm qe
    rw [querySemanticStage_topic_filter]
    exact ⟨by simp, hsc, hsh, hsm⟩
  cases embOpt with
  | some e =>
    cases sid with
    | none =>
      dsimp only
      exact hstep rc1 h1.1 h1.2.1 h1.2.2 e
    | some s =>
      dsimp only
      rcases hsearch : rc1.search_session_context sim s e kk
          sessionThreshold now with ⟨res, rc3⟩
      have h3 := search_session_context_semantic sim rc1 s e kk
        sessionThreshold now
      rw [hsearch] at h3
      by_cases hres : res = []
      · rw [if_neg (not_not_intro hres)]
        exact hstep rc3 (h3.1.trans h1.1) (h3.2.1.trans h1.2.1)
          (h3.2.2.trans h1.2.2) e
      · rw [if_pos hres]
        refine ⟨by simp, ?_, ?_, ?_⟩
        · dsimp only
          rw [h3.1, h1.1]
        · dsimp only
          rw [h3.2.1, h1.2.1]
        · dsimp only
          rw [h3.2.2, h1.2.2]
  | none =>
    have h2 : (rc1.cache_embedding q (env.embed q) now).semantic_cache =
        rc.semantic_cache ∧
        (rc1.cache_embedding q (env.embed q) now).semantic_hits =
          rc.semantic_hits ∧
        (rc1.cache_embedding q (env.embed q) now).semantic_misses =
          rc.semantic_misses := h1
    cases sid with
    | none =>
      dsimp only
      exact hstep (rc1.cache_embedding q (env.embed q) now) h2.1 h2.2.1
        h2.2.2 (env.embed q)
    | some s =>
      dsimp only
      rcases hsearch : (rc1.cache_embedding q (env.embed q)
          now).search_session_context sim s (env.embed q) kk
          sessionThreshold now with ⟨res, rc3⟩
      have h3 := search_session_context_semantic sim
        (rc1.cache_embedding q (env.embed q) now) s (env.embed q) kk
        sessionThreshold now
      rw [hsearch] at h3
      by_cases hres : res = []
      · rw [if_neg (not_not_intro hres)]
        exact hstep rc3 (h3.1.trans h2.1) (h3.2.1.trans h2.2.1)
          (h3.2.2.trans h2.2.2) (env.embed q)
      · rw [if_pos hres]
        refine ⟨by simp, ?_, ?_, ?_⟩
        · dsimp only
          rw [h3.1, h2.1]
        · dsimp only
          rw [h3.2.1, h2.2.1]
        · dsimp only
          rw [h3.2.2, h2.2.2]

/-- Witness for the amended C3 at the concrete pre-warmed state. -/
theorem C3_topic_filter_skips_semantic_cache_witness :
    (RAGService.query envQ oneSim rcB "q" 1 (some ["x"]) (some 5) true
      (some "s") 0).cache.semantic_cache = rcB.semantic_cache :=
  (C3_topic_filter_skips_semantic_cache envQ oneSim rcB "q" 1 ["x"] (some 5)
    (some "s") 0).2.1

/-! ## C5: the session stage and its ranking -/

theorem orderedInsert_filter_score (a : ℚ × ChunkResult) (s : ℚ) :
    ∀ l : List (ℚ × ChunkResult),
      (l.orderedInsert scoreGE a).filter (fun p => decide (p.1 = s)) =
        if a.1 = s then a :: l.filter (fun p => decide (p.1 = s))
        else l.filter (fun p => decide (p.1 = s)) := by
  intro l
  induction l with
  | nil =>
    by_cases h : a.1 = s <;> simp [List.orderedInsert, h]
  | cons b l ih =>
    by_cases hr : scoreGE a b
    · rw [List.orderedInsert, if_pos hr]
      by_cases h : a.1 = s <;> simp [h]
    · rw [List.orderedInsert, if_neg hr]
      have hbgt : a.1 < b.1 := by
        rw [scoreGE] at hr
        exact lt_of_not_le hr
      by_cases h : a.1 = s
      · have hbne : ¬(b.1 = s) := by
          intro hb
          rw [h] at hbgt
          rw [hb] at hbgt
          exact lt_irrefl s hbgt
        simp only [List.filter_cons, hbne, decide_eq_true_eq, if_neg hbne]
        rw [ih]
        simp [h, hbne]
      · simp only [List.filter_cons]
        rw [ih]
        simp [h]

theorem sortDesc_stable (s : ℚ) :
    ∀ l : List (ℚ × ChunkResult),
      (sortDesc l).filter (fun p => decide (p.1 = s)) =
        l.filter (fun p => decide (p.1 = s)) := by
  intro l
  induction l with
  | nil => rfl
  | cons a l ih =>
    rw [sortDesc, List.insertionSort]
    rw [show List.insertionSort scoreGE l = sortDesc l from rfl]
    rw [orderedInsert_filter_score]
    by_cases h : a.1 = s
    · rw [if_pos h, ih]
      simp [List.filter_cons, h]
    · rw [if_neg h, ih]
      simp [List.filter_cons, h]

theorem sortDesc_perm (l : List (ℚ × ChunkResult)) : (sortDesc l).Perm l :=
  List.perm_insertionSort scoreGE l

theorem sortDesc_sorted (l : List (ℚ × ChunkResult)) :
    List.Sorted scoreGE (sortDesc l) :=
  List.sorted_insertionSort scoreGE l

/-- The value returned by `search_session_context` for a stored, non-empty
session context: the threshold-passing (score, chunk) pairs in array order,
stably sorted by descending score, truncated to `top_k`, projected to the
chunks. -/
theorem search_session_context_result (sim : Emb → Emb → ℚ) (rc : RAGCache)
    (sid : String) (qe : Emb) (k : ℕ) (th now : ℚ) (ctx : SessionContext)
    (hctx : getA rc.session_contexts sid = some ctx)
    (hne : ctx.chunks.isEmpty = false) :
    (rc.search_session_context sim sid qe k th now).1 =
      ((sortDesc ((ctx.embeddings.zip ctx.chunks).filterMap (fun p =>
        if sim qe p.1 ≥ th then some (sim qe p.1, p.2) else none))).take
          k).map (fun p => p.2) := by
  rw [RAGCache.search_session_context, RAGCache.get_session_context]
  simp only [hctx, hne]
  rfl

/-- C5: when caching is on, a session id is supplied, and the stored session
context contains at least one (embedding, chunk) pair whose similarity to the
query embedding reaches the session threshold 0.7, `query` answers from the
session stage and makes no similarity-index call; the answer is the top-K
threshold-passing chunks sorted by descending similarity, and that sort is a
permutation of the passing pairs, descending, with equal scores kept in
original array order. -/
theorem C5_session_stage_ranking (env : QueryEnv) (sim : Emb → Emb → ℚ)
    (rc : RAGCache) (q : String) (dealership_id : ℤ)
    (topics : Option (List String)) (top_k : Option ℕ) (sid : String)
    (now : ℚ) (ctx : SessionContext) (qe : Emb)
    (hqe : (rc.get_cached_embedding q now).1.getD (env.embed q) = qe)
    (hctx : getA rc.session_contexts sid = some ctx)
    (hex : ∃ p ∈ ctx.embeddings.zip ctx.chunks,
      sessionThreshold ≤ sim qe p.1) :
    (RAGService.query env sim rc q dealership_id topics top_k true (some sid)
        now).results =
      ((sortDesc ((ctx.embeddings.zip ctx.chunks).filterMap (fun p =>
          if sim qe p.1 ≥ sessionThreshold then some (sim qe p.1, p.2)
          else none))).take
        (match top_k with
          | some n => if n = 0 then RAG_TOP_K else n
          | none => RAG_TOP_K)).map (fun p => p.2) ∧
    (RAGService.query env sim rc q dealership_id topics top_k true (some sid)
        now).indexCalls = 0 ∧
    (RAGService.query env sim rc q dealership_id topics top_k true (some sid)
        now).source = .session ∧
    (sortDesc ((ctx.embeddings.zip ctx.chunks).filterMap (fun p =>
        if sim qe p.1 ≥ sessionThreshold then some (sim qe p.1, p.2)
        else none))).Perm
      ((ctx.embeddings.zip ctx.chunks).filterMap (fun p =>
        if sim qe p.1 ≥ sessionThreshold then some (sim qe p.1, p.2)
        else none)) ∧
    List.Sorted scoreGE (sortDesc ((ctx.embeddings.zip ctx.chunks).filterMap
      (fun p => if sim qe p.1 ≥ sessionThreshold then some (sim qe p.1, p.2)
        else none))) ∧
    (∀ s : ℚ,
      (sortDesc ((ctx.embeddings.zip ctx.chunks).filterMap (fun p =>
        if sim qe p.1 ≥ sessionThreshold then some (sim qe p.1, p.2)
        else none))).filter (fun p => decide (p.1 = s)) =
      ((ctx.embeddings.zip ctx.chunks).filterMap (fun p =>
        if sim qe p.1 ≥ sessionThreshold then some (sim qe p.1, p.2)
        else none)).filter (fun p => decide (p.1 = s))) := by
  set pairs := (ctx.embeddings.zip ctx.chunks).filterMap (fun p =>
    if sim qe p.1 ≥ sessionThreshold then some (sim qe p.1, p.2) else none)
    with hpairs
  have hpairsne : pairs ≠ [] := by
    obtain ⟨p, hp, hth⟩ := hex
    have hmem : (sim qe p.1, p.2) ∈ pairs := by
      rw [hpairs]
      exact List.mem_filterMap.mpr ⟨p, hp, by rw [if_pos hth]⟩
    intro hnil
    rw [hnil] at hmem
    cases hmem
  have hchne : ctx.chunks.isEmpty = false := by
    obtain ⟨p, hp, -⟩ := hex
    obtain ⟨e0, c0⟩ := p
    have h2 := (List.of_mem_zip hp).2
    cases hch : ctx.chunks with
    | nil =>
      rw [hch] at h2
      cases h2
    | cons x xs => rfl
  rw [RAGService.query.eq_def]
  simp only [if_true]
  generalize hgen : (match top_k with
    | some n => if n = 0 then RAG_TOP_K else n
    | none => RAG_TOP_K : ℕ) = kk
  have hkk1 : 1 ≤ kk := by
    rw [← hgen]
    cases top_k with
    | none => norm_num [RAG_TOP_K]
    | some n =>
      by_cases hn : n = 0
      · simp [hn, RAG_TOP_K]
      · simp only [hn, if_false]
        omega
  rcases hge : rc.get_cached_embedding q now with ⟨embOpt, rc1⟩
  rw [hge] at hqe
  simp only [hge]
  have hsess1 : rc1.session_contexts = rc.session_contexts := by
    have h := get_cached_embedding_sessions rc q now
    rw [hge] at h
    exact h
  have hmain : ∀ rc2 : RAGCache, rc2.session_contexts = rc.session_contexts →
      ∀ res rc3, rc2.search_session_context sim sid qe kk sessionThreshold
        now = (res, rc3) →
      (res ≠ [] ∧ res = ((sortDesc pairs).take kk).map (fun p => p.2)) := by
    intro rc2 hsess res rc3 hsearch
    have h := search_session_context_result sim rc2 sid qe kk
      sessionThreshold now ctx (by rw [hsess]; exact hctx) hchne
    rw [hsearch] at h
    have h' : res = ((sortDesc pairs).take kk).map (fun p => p.2) := h
    refine ⟨?_, h'⟩
    rw [h']
    intro hnil
    have h1 : (sortDesc pairs).take kk = [] := List.map_eq_nil_iff.mp hnil
    have h2 := congrArg List.length h1
    rw [List.length_take, (sortDesc_perm pairs).length_eq] at h2
    rcases (by simpa using h2 : kk = 0 ∨ pairs = []) with h | h
    · omega
    · exact hpairsne h
  cases embOpt with
  | some e =>
    have he : e = qe := by simpa using hqe
    subst he
    dsimp only
    rcases hsearch : rc1.search_session_context sim sid e kk sessionThreshold
      now with ⟨res, rc3⟩
    obtain ⟨hresne, hres⟩ := hmain rc1 hsess1 res rc3 hsearch
    rw [if_pos hresne]
    exact ⟨hres, rfl, rfl, sortDesc_perm pairs, sortDesc_sorted pairs,
      fun s => sortDesc_stable s pairs⟩
  | none =>
    have he : env.embed q = qe := by simpa using hqe
    subst he
    dsimp only
    rcases hsearch : (rc1.cache_embedding q (env.embed q)
        now).search_session_context sim sid (env.embed q) kk sessionThreshold
        now with ⟨res, rc3⟩
    have hsess2 : (rc1.cache_embedding q (env.embed q)
        now).session_contexts = rc.session_contexts := by
      rw [cache_embedding_sessions, hsess1]
    obtain ⟨hresne, hres⟩ := hmain _ hsess2 res rc3 hsearch
    rw [if_pos hresne]
    exact ⟨hres, rfl, rfl, sortDesc_perm pairs, sortDesc_sorted pairs,
      fun s => sortDesc_stable s pairs⟩

/-- Witness for C5 at the concrete one-chunk session. -/
theorem C5_session_stage_ranking_witness :
    (RAGService.query envQ oneSim rcB "q" 1 none (some 5) true (some "s")
      0).indexCalls = 0 :=
  (C5_session_stage_ranking envQ oneSim rcB "q" 1 none (some 5) "s" 0 ctxB
    [1] (by rfl) (by rfl)
    ⟨([1], chunkB), by simp [ctxB], by
      rw [sessionThreshold_eq]
      norm_num [oneSim]⟩).2.1

end Rag
